import Mathlib

/-!
Verification development for the fast Erdős–Guy–Selfridge counting engine
(`src/fastegs/egs.c`).  The C program is shallowly embedded: the prime
tables built by `primesieve`/`primecount` (assumed-correct external
collaborators) are modelled by ideal computable functions, the smooth
factorization tables built by `setup` are modelled by `MfacT`, and the
counter `tfac`, the certificate machinery (`fac_extend`, `fac_verify`) and
the search driver `tbound` are modelled by fuel-based executable
functions returning `Option` (with `none` for a failed `assert`, i.e. an
abort of the process).  Machine integers are modelled by `ℕ`/`ℤ`; all
values involved are far below the `int64` range by the program's own
bounds (`MAXP * MAXN < 2^60`), so no wrap-around is modelled.
-/

namespace Egs

/-- Trial division of `n` by `d, d+1, ...` while `d * d ≤ n`, with explicit
fuel; `true` means no divisor was found. -/
def tryDiv (n : ℕ) : ℕ → ℕ → Bool
  | 0, _ => true
  | fuel + 1, d =>
    if n < d * d then true else if n % d = 0 then false else tryDiv n fuel (d + 1)

theorem tryDiv_spec (n : ℕ) : ∀ fuel d, n < (d + fuel) * (d + fuel) →
    (tryDiv n fuel d = true ↔ ∀ m, d ≤ m → m * m ≤ n → n % m ≠ 0) := by
  intro fuel
  induction fuel with
  | zero =>
    intro d hbig
    have hbig' : n < d * d := by simpa using hbig
    simp only [tryDiv, true_iff]
    intro m hm hmn
    exact absurd hbig' (not_lt.mpr (le_trans (Nat.mul_le_mul hm hm) hmn))
  | succ fuel ih =>
    intro d hbig
    simp only [tryDiv]
    by_cases hlt : n < d * d
    · simp only [if_pos hlt, true_iff]
      intro m hm hmn
      exact absurd hlt (not_lt.mpr (le_trans (Nat.mul_le_mul hm hm) hmn))
    · simp only [if_neg hlt]
      have hdd : d * d ≤ n := Nat.not_lt.mp hlt
      by_cases hmod : n % d = 0
      · simp only [if_pos hmod]
        constructor
        · intro h; exact absurd h (by simp)
        · intro h
          exact absurd hmod (h d le_rfl hdd)
      · simp only [if_neg hmod]
        have harg : n < (d + 1 + fuel) * (d + 1 + fuel) := by
          have he : d + 1 + fuel = d + (fuel + 1) := by omega
          rw [he]; exact hbig
        rw [ih (d + 1) harg]
        constructor
        · intro h m hm hmn
          rcases Nat.eq_or_lt_of_le hm with h' | h'
          · subst h'; exact hmod
          · exact h m h' hmn
        · intro h m hm hmn
          exact h m (by omega) hmn

/-- Trial-division primality test; mirrors the mathematical notion of
primality used implicitly by the external prime iterators.  Written as a
structural `Bool` program so that the kernel can evaluate it. -/
def isPrimeB (n : ℕ) : Bool :=
  decide (2 ≤ n) && tryDiv n n 2

theorem isPrimeB_iff (n : ℕ) : isPrimeB n = true ↔ n.Prime := by
  rw [Nat.prime_def_le_sqrt]
  simp only [isPrimeB, Bool.and_eq_true, decide_eq_true_eq]
  have hbig : n < (2 + n) * (2 + n) := by nlinarith
  constructor
  · rintro ⟨h2, h⟩
    refine ⟨h2, fun m hm hms hdvd => ?_⟩
    exact (tryDiv_spec n n 2 hbig).mp h m hm (Nat.le_sqrt.mp hms)
      (Nat.mod_eq_zero_of_dvd hdvd)
  · rintro ⟨h2, h⟩
    refine ⟨h2, (tryDiv_spec n n 2 hbig).mpr ?_⟩
    intro m hm hms hmod
    exact h m hm (Nat.le_sqrt.mpr hms) (Nat.dvd_of_mod_eq_zero hmod)

/-- Number of primes `≤ n`; the ideal prime-counting function π, modelling
both the precomputed `PI` table and the external `primecount_pi` oracle
(both are exact by assumption). -/
def piFun (n : ℕ) : ℕ :=
  (List.range (n + 1)).countP isPrimeB

/-- Search for the first prime at or above `c`, with explicit fuel. -/
def searchPrime : ℕ → ℕ → ℕ
  | 0, _ => 0
  | fuel + 1, c => if isPrimeB c then c else searchPrime fuel (c + 1)

/-- The least prime exceeding `p` (total thanks to Bertrand's postulate). -/
def nextPrime (p : ℕ) : ℕ :=
  searchPrime (p + 2) (p + 1)

/-- The `n`th prime; `Pnth 0 = 1` models the sentinel `P[0] = 1` of the C
table. -/
def Pnth : ℕ → ℕ
  | 0 => 1
  | 1 => 2
  | n + 2 => nextPrime (Pnth (n + 1))

theorem searchPrime_spec (fuel : ℕ) : ∀ c q, q.Prime → c ≤ q → q < c + fuel →
    (searchPrime fuel c).Prime ∧ c ≤ searchPrime fuel c ∧ searchPrime fuel c ≤ q ∧
      (∀ r, r.Prime → c ≤ r → searchPrime fuel c ≤ r) := by
  induction fuel with
  | zero => intro c q _ h1 h2; omega
  | succ fuel ih =>
    intro c q hq h1 h2
    by_cases hc : isPrimeB c
    · rw [searchPrime, if_pos hc]
      exact ⟨(isPrimeB_iff c).mp hc, le_refl c, h1, fun r _ hr => hr⟩
    · rw [searchPrime, if_neg hc]
      have hcq : c ≠ q := fun h => hc (by rw [h]; exact (isPrimeB_iff q).mpr hq)
      have h1' : c + 1 ≤ q := by omega
      obtain ⟨ha, hb, hcle, hd⟩ := ih (c + 1) q hq h1' (by omega)
      refine ⟨ha, by omega, hcle, fun r hr hcr => ?_⟩
      have : c ≠ r := fun h => hc (by rw [h]; exact (isPrimeB_iff r).mpr hr)
      exact hd r hr (by omega)

theorem nextPrime_spec (p : ℕ) :
    (nextPrime p).Prime ∧ p < nextPrime p ∧
      (∀ r, r.Prime → p < r → nextPrime p ≤ r) := by
  obtain ⟨q, hq, h1, h2⟩ : ∃ q, q.Prime ∧ p < q ∧ q < p + 1 + (p + 2) := by
    rcases Nat.eq_zero_or_pos p with rfl | hp
    · exact ⟨2, Nat.prime_two, by omega, by omega⟩
    · obtain ⟨q, hq, hlt, hle⟩ := Nat.bertrand p (by omega)
      exact ⟨q, hq, hlt, by omega⟩
  obtain ⟨ha, hb, _, hd⟩ := searchPrime_spec (p + 2) (p + 1) q hq (by omega) (by omega)
  exact ⟨ha, by unfold nextPrime; omega, fun r hr hpr => hd r hr (by omega)⟩

theorem Pnth_prime : ∀ n, 1 ≤ n → (Pnth n).Prime
  | 1, _ => Nat.prime_two
  | n + 2, _ => (nextPrime_spec (Pnth (n + 1))).1

theorem Pnth_lt_succ (n : ℕ) : Pnth n < Pnth (n + 1) := by
  match n with
  | 0 => simp [Pnth]
  | n + 1 => exact (nextPrime_spec (Pnth (n + 1))).2.1

theorem Pnth_strictMono : StrictMono Pnth :=
  strictMono_nat_of_lt_succ Pnth_lt_succ

/-- Counting step: π increases by exactly one when crossing the next prime. -/
theorem piFun_succ (n : ℕ) :
    piFun (n + 1) = piFun n + (if isPrimeB (n + 1) then 1 else 0) := by
  unfold piFun
  rw [List.range_succ, List.countP_append]
  simp [List.countP_cons]

theorem piFun_mono : Monotone piFun := by
  refine monotone_nat_of_le_succ (fun n => ?_)
  rw [piFun_succ]
  split <;> omega

theorem piFun_nextPrime (p : ℕ) : piFun (nextPrime p) = piFun p + 1 := by
  obtain ⟨hp, hlt, hleast⟩ := nextPrime_spec p
  have step : ∀ k, p ≤ k → k < nextPrime p → piFun k = piFun p := by
    intro k
    induction k with
    | zero =>
      intro hk _
      have h0 : p = 0 := by omega
      rw [h0]
    | succ k ih =>
      intro hk hlt'
      rcases Nat.eq_or_lt_of_le hk with h | h
      · rw [← h]
      · have hnp : ¬ isPrimeB (k + 1) := by
          intro hb
          exact absurd (hleast (k + 1) ((isPrimeB_iff _).mp hb) (by omega)) (by omega)
        rw [piFun_succ, if_neg hnp, ih (by omega) (by omega)]
        omega
  have hq1 : nextPrime p - 1 + 1 = nextPrime p := by omega
  have h2 : piFun (nextPrime p - 1 + 1) = piFun (nextPrime p - 1) + 1 := by
    rw [piFun_succ, hq1, if_pos ((isPrimeB_iff _).mpr hp)]
  rcases Nat.eq_or_lt_of_le (Nat.succ_le_of_lt hlt) with h | h
  · rw [← hq1, h2, show nextPrime p - 1 = p by omega]
  · rw [← hq1, h2, step (nextPrime p - 1) (by omega) (by omega)]

theorem piFun_Pnth : ∀ n, piFun (Pnth n) = n
  | 0 => by decide
  | 1 => by decide
  | n + 2 => by
    rw [show Pnth (n + 2) = nextPrime (Pnth (n + 1)) from rfl, piFun_nextPrime,
      piFun_Pnth (n + 1)]

theorem piFun_lt_of_prime_lt {p q : ℕ} (hq : q.Prime) (h : p < q) :
    piFun p < piFun q := by
  have hq1 : q - 1 + 1 = q := by have := hq.pos; omega
  have h2 : piFun (q - 1 + 1) = piFun (q - 1) + 1 := by
    rw [piFun_succ, hq1, if_pos ((isPrimeB_iff q).mpr hq)]
  have h3 : piFun p ≤ piFun (q - 1) := piFun_mono (by omega)
  rw [← hq1]
  omega

theorem Pnth_piFun {p : ℕ} (hp : p.Prime) : Pnth (piFun p) = p := by
  have h1 : 1 ≤ piFun p := by
    have := piFun_lt_of_prime_lt hp hp.one_lt
    have : piFun 1 = 0 := by decide
    omega
  have hpr : (Pnth (piFun p)).Prime := Pnth_prime _ h1
  rcases lt_trichotomy (Pnth (piFun p)) p with h | h | h
  · have := piFun_lt_of_prime_lt hp h
    rw [piFun_Pnth] at this; omega
  · exact h
  · have := piFun_lt_of_prime_lt hpr h
    rw [piFun_Pnth] at this; omega

theorem Pnth_pos (n : ℕ) : 0 < Pnth n := by
  cases n with
  | zero => decide
  | succ n => exact (Pnth_prime (n + 1) (by omega)).pos

theorem Pnth_two_le {n : ℕ} (h : 1 ≤ n) : 2 ≤ Pnth n :=
  (Pnth_prime n h).two_le

/-! ## SmoothFactorizer (`setup`, `egs.c` lines 71-136)

The C code stores factorizations of cofactors as zero-terminated lists of
bit-packed `(prime-index, exponent)` pairs in the arena `F`, with `M[m]`
the arena offset of the factorization of `m` (`0` meaning "absent", i.e.
`m` is not `MAXP`-smooth).  We model a `struct pp` by a pair `ℕ × ℕ` and
the table entry for `m` by `MfacT maxp maxm m : Option (List (ℕ × ℕ))`
(`none` = absent). -/

/-- Ceiling division, the C helper `cdiv`. -/
def cdiv (a b : ℕ) : ℕ := (a + b - 1) / b

/-- Value of one `(prime-index, exponent)` pair. -/
def ppVal (x : ℕ × ℕ) : ℕ := Pnth x.1 ^ x.2

/-- Product of a recorded factorization. -/
def prodPairs (l : List (ℕ × ℕ)) : ℕ := (l.map ppVal).prod

theorem prodPairs_append (l₁ l₂ : List (ℕ × ℕ)) :
    prodPairs (l₁ ++ l₂) = prodPairs l₁ * prodPairs l₂ := by
  simp [prodPairs]

/-- Fueled 2-adic valuation; models `v2` (a trailing-zero count in C). -/
def v2F : ℕ → ℕ → ℕ
  | 0, _ => 0
  | fuel + 1, m => if m % 2 = 0 ∧ m ≠ 0 then v2F fuel (m / 2) + 1 else 0

/-- 2-adic valuation of `m` (the C helper `v2`). -/
def v2 (m : ℕ) : ℕ := v2F m m

theorem v2F_spec : ∀ fuel m, 1 ≤ m → m ≤ fuel →
    m = 2 ^ v2F fuel m * (m / 2 ^ v2F fuel m) ∧ (m / 2 ^ v2F fuel m) % 2 = 1 := by
  intro fuel
  induction fuel with
  | zero => intro m h1 h2; omega
  | succ fuel ih =>
    intro m h1 h2
    by_cases he : m % 2 = 0 ∧ m ≠ 0
    · have he1 : m % 2 = 0 := he.1
      have he2 : m ≠ 0 := he.2
      have h2' : m / 2 ≤ fuel := by omega
      have h1' : 1 ≤ m / 2 := by omega
      obtain ⟨ha, hb⟩ := ih (m / 2) h1' h2'
      rw [show v2F (fuel + 1) m = v2F fuel (m / 2) + 1 by rw [v2F, if_pos he]]
      have hdd : m / 2 ^ (v2F fuel (m / 2) + 1) = m / 2 / 2 ^ v2F fuel (m / 2) := by
        rw [Nat.div_div_eq_div_mul, pow_succ, Nat.mul_comm]
      constructor
      · rw [hdd, pow_succ]
        calc m = 2 * (m / 2) := by omega
          _ = 2 * (2 ^ v2F fuel (m / 2) * (m / 2 / 2 ^ v2F fuel (m / 2))) := by rw [← ha]
          _ = 2 ^ v2F fuel (m / 2) * 2 * (m / 2 / 2 ^ v2F fuel (m / 2)) := by ring
      · rw [hdd]; exact hb
    · rw [show v2F (fuel + 1) m = 0 by rw [v2F, if_neg he]]
      simp only [pow_zero, Nat.div_one, one_mul]
      have hodd : m % 2 = 1 := by
        rcases Nat.mod_two_eq_zero_or_one m with h | h
        · exact absurd ⟨h, by omega⟩ he
        · exact h
      exact ⟨trivial, hodd⟩

theorem v2_spec (m : ℕ) (h1 : 1 ≤ m) :
    m = 2 ^ v2 m * (m / 2 ^ v2 m) ∧ (m / 2 ^ v2 m) % 2 = 1 :=
  v2F_spec m m h1 (le_refl m)

/-- Largest prime `p ≤ maxp` dividing `m` (`0` if none); this is what the
linear sieve of `setup` (line 96) records in `M` before the factorization
pass rewrites `M` into arena offsets. -/
def lpfB (maxp m : ℕ) : ℕ :=
  Nat.findGreatest (fun p => isPrimeB p = true ∧ m % p = 0) maxp

/-- The prime index stored by the sieve: `M[m] = pi(lpf(m))`. -/
def M0 (maxp m : ℕ) : ℕ := piFun (lpfB maxp m)

theorem lpfB_spec {maxp m : ℕ} (h : lpfB maxp m ≠ 0) :
    (lpfB maxp m).Prime ∧ lpfB maxp m ∣ m ∧ lpfB maxp m ≤ maxp := by
  have hs := Nat.findGreatest_of_ne_zero (rfl : lpfB maxp m = lpfB maxp m) h
  refine ⟨(isPrimeB_iff _).mp hs.1, ?_, Nat.findGreatest_le maxp⟩
  have hp : 0 < lpfB maxp m := Nat.pos_of_ne_zero h
  exact Nat.dvd_of_mod_eq_zero hs.2

theorem lpfB_eq_zero_iff {maxp m : ℕ} :
    lpfB maxp m = 0 ↔ ∀ p, p.Prime → p ∣ m → ¬p ≤ maxp := by
  rw [lpfB, Nat.findGreatest_eq_zero_iff]
  constructor
  · intro h p hp hdvd hle
    exact h hp.pos hle ⟨(isPrimeB_iff p).mpr hp, Nat.dvd_iff_mod_eq_zero.mp hdvd⟩
  · intro h n hn hnle hc
    exact h n ((isPrimeB_iff n).mp hc.1) (Nat.dvd_of_mod_eq_zero hc.2) hnle

theorem le_lpfB {maxp m p : ℕ} (hp : p.Prime) (hdvd : p ∣ m) (hle : p ≤ maxp) :
    p ≤ lpfB maxp m :=
  Nat.le_findGreatest hle ⟨(isPrimeB_iff p).mpr hp, Nat.dvd_iff_mod_eq_zero.mp hdvd⟩

theorem M0_ne_zero_iff {maxp m : ℕ} : M0 maxp m ≠ 0 ↔ lpfB maxp m ≠ 0 := by
  unfold M0
  constructor
  · intro h hc; rw [hc] at h; exact h (by decide)
  · intro h
    have := piFun_lt_of_prime_lt (lpfB_spec h).1 (lpfB_spec h).1.one_lt
    omega

theorem Pnth_M0 {maxp m : ℕ} (h : M0 maxp m ≠ 0) :
    Pnth (M0 maxp m) = lpfB maxp m :=
  Pnth_piFun (lpfB_spec (M0_ne_zero_iff.mp h)).1

/-- Smoothness: every prime factor of `m` is at most `maxp`. -/
def IsSmooth (maxp m : ℕ) : Prop := ∀ p, p.Prime → p ∣ m → p ≤ maxp

/-- The factorization chain of the odd pass of `setup` (lines 107-119):
repeatedly divide `q` by its recorded largest prime factor, aggregating
equal consecutive prime indices into exponents.  Returns the written pair
list and the final quotient (the chain "breaks" iff that quotient is not
`1`). -/
def facLoop (maxp : ℕ) : ℕ → ℕ → ℕ × ℕ → List (ℕ × ℕ) → List (ℕ × ℕ) × ℕ
  | 0, q, cur, acc => (acc ++ [cur], q)
  | fuel + 1, q, cur, acc =>
    if M0 maxp q ≠ 0 then
      if M0 maxp q = cur.1 then
        facLoop maxp fuel (q / Pnth (M0 maxp q)) (cur.1, cur.2 + 1) acc
      else
        facLoop maxp fuel (q / Pnth (M0 maxp q)) (M0 maxp q, 1) (acc ++ [cur])
    else (acc ++ [cur], q)

theorem facLoop_spec (maxp : ℕ) : ∀ fuel q cur acc, 1 ≤ q → q ≤ fuel →
    prodPairs (facLoop maxp fuel q cur acc).1 * (facLoop maxp fuel q cur acc).2 =
        prodPairs (acc ++ [cur]) * q ∧
      ((facLoop maxp fuel q cur acc).2 = 1 ↔ IsSmooth maxp q) := by
  intro fuel
  induction fuel with
  | zero => intro q cur acc h1 h2; omega
  | succ fuel ih =>
    intro q cur acc h1 h2
    by_cases hM : M0 maxp q ≠ 0
    · have hlp := lpfB_spec (M0_ne_zero_iff.mp hM)
      set p := lpfB maxp q with hpdef
      have hPn : Pnth (M0 maxp q) = p := Pnth_M0 hM
      have hp2 : 2 ≤ p := hlp.1.two_le
      have hq2 : 2 ≤ q := by
        rcases hlp.2.1 with ⟨k, hk⟩
        rcases Nat.eq_zero_or_pos k with rfl | hkpos
        · omega
        · nlinarith
      have hqq : q / p < q := Nat.div_lt_self (by omega) (by omega)
      have hq1' : 1 ≤ q / p := Nat.one_le_div_iff (by omega) |>.mpr (Nat.le_of_dvd (by omega) hlp.2.1)
      have hq2' : q / p ≤ fuel := by omega
      have hqrec : p * (q / p) = q := Nat.mul_div_cancel' hlp.2.1
      have hsm : IsSmooth maxp (q / p) ↔ IsSmooth maxp q := by
        constructor
        · intro hs r hr hrd
          have hrd' : r ∣ p * (q / p) := by rw [hqrec]; exact hrd
          rcases (Nat.Prime.dvd_mul hr).mp hrd' with h | h
          · rw [Nat.prime_dvd_prime_iff_eq hr hlp.1 |>.mp h]; exact hlp.2.2
          · exact hs r hr h
        · intro hs r hr hrd
          exact hs r hr (hrd.trans (Nat.div_dvd_of_dvd hlp.2.1))
      by_cases hcur : M0 maxp q = cur.1
      · have hred : facLoop maxp (fuel + 1) q cur acc =
            facLoop maxp fuel (q / Pnth (M0 maxp q)) (cur.1, cur.2 + 1) acc := by
          rw [facLoop, if_pos hM, if_pos hcur]
        rw [hred, hPn]
        obtain ⟨ha, hb⟩ := ih (q / p) (cur.1, cur.2 + 1) acc hq1' hq2'
        refine ⟨?_, hb.trans hsm⟩
        rw [ha]
        have : prodPairs (acc ++ [(cur.1, cur.2 + 1)]) = prodPairs (acc ++ [cur]) * p := by
          rw [prodPairs_append, prodPairs_append]
          simp only [prodPairs, ppVal, List.map_cons, List.map_nil, List.prod_cons,
            List.prod_nil]
          rw [← hcur, hPn, pow_succ]
          ring
        rw [this]
        calc prodPairs (acc ++ [cur]) * p * (q / p)
            = prodPairs (acc ++ [cur]) * (p * (q / p)) := by ring
          _ = prodPairs (acc ++ [cur]) * q := by rw [hqrec]
      · have hred : facLoop maxp (fuel + 1) q cur acc =
            facLoop maxp fuel (q / Pnth (M0 maxp q)) (M0 maxp q, 1) (acc ++ [cur]) := by
          rw [facLoop, if_pos hM, if_neg hcur]
        rw [hred, hPn]
        obtain ⟨ha, hb⟩ := ih (q / p) (M0 maxp q, 1) (acc ++ [cur]) hq1' hq2'
        refine ⟨?_, hb.trans hsm⟩
        rw [ha]
        have : prodPairs (acc ++ [cur] ++ [(M0 maxp q, 1)]) =
            prodPairs (acc ++ [cur]) * p := by
          rw [prodPairs_append]
          simp only [prodPairs, ppVal, List.map_cons, List.map_nil, List.prod_cons,
            List.prod_nil]
          rw [hPn]
          ring
        rw [this]
        calc prodPairs (acc ++ [cur]) * p * (q / p)
            = prodPairs (acc ++ [cur]) * (p * (q / p)) := by ring
          _ = prodPairs (acc ++ [cur]) * q := by rw [hqrec]
    · push_neg at hM
      have hred : facLoop maxp (fuel + 1) q cur acc = (acc ++ [cur], q) := by
        rw [facLoop, if_neg (by simp [hM])]
      rw [hred]
      refine ⟨rfl, ?_⟩
      show q = 1 ↔ IsSmooth maxp q
      constructor
      · intro hq1e p hp hdvd
        rw [hq1e] at hdvd
        have hp1 : p = 1 := Nat.dvd_one.mp hdvd
        exact absurd hp1 hp.one_lt.ne'
      · intro hs
        by_contra hne
        obtain ⟨p, hp, hdvd⟩ := Nat.exists_prime_and_dvd (hne : q ≠ 1)
        have hle := hs p hp hdvd
        have h0 : lpfB maxp q = 0 := by
          by_contra h0
          have h1 := piFun_lt_of_prime_lt (lpfB_spec h0).1 (lpfB_spec h0).1.one_lt
          have : M0 maxp q ≠ 0 := by unfold M0; omega
          exact this hM
        exact (lpfB_eq_zero_iff.mp h0) p hp hdvd hle

/-- Adjusted cofactor bound: `setup` makes `maxm` odd (line 78). -/
def maxmAdj (maxm : ℕ) : ℕ := if maxm % 2 = 0 then maxm + 1 else maxm

/-- Factorization table entry for odd `m ≥ 3`: run the chain starting from
the sieve value, succeed iff the final quotient is `1`. -/
def MfacOdd (maxp m : ℕ) : Option (List (ℕ × ℕ)) :=
  let r := facLoop maxp m m (M0 maxp m, 0) []
  if r.2 = 1 then some r.1 else none

/-- The table entry `F[M[m]]` after `setup maxp maxm` completes: `none`
models `M[m] = 0` (absent).  `m = 1` has the explicitly written empty
factorization (line 121); even `m` is derived from its odd part plus a
power-of-two pair `(1, v2 m)` (lines 122-130). -/
def MfacT (maxp maxm m : ℕ) : Option (List (ℕ × ℕ)) :=
  if m = 0 ∨ maxmAdj maxm < m then none
  else if m = 1 then some []
  else if m % 2 = 1 then MfacOdd maxp m
  else
    Option.map (fun l => l ++ [(1, v2 m)])
      (if m / 2 ^ v2 m = 1 then some [] else MfacOdd maxp (m / 2 ^ v2 m))

theorem MfacOdd_spec (maxp m : ℕ) (h1 : 1 ≤ m) :
    ((MfacOdd maxp m).isSome ↔ IsSmooth maxp m) ∧
      ∀ l, MfacOdd maxp m = some l → prodPairs l = m := by
  obtain ⟨ha, hb⟩ := facLoop_spec maxp m m (M0 maxp m, 0) [] h1 (le_refl m)
  have hinit : prodPairs ([] ++ [(M0 maxp m, 0)]) = 1 := by
    simp [prodPairs, ppVal]
  unfold MfacOdd
  constructor
  · by_cases hr : (facLoop maxp m m (M0 maxp m, 0) []).2 = 1
    · rw [if_pos hr]
      exact iff_of_true rfl (hb.mp hr)
    · rw [if_neg hr]
      exact iff_of_false (by simp) (fun hs => hr (hb.mpr hs))
  · intro l hl
    by_cases hr : (facLoop maxp m m (M0 maxp m, 0) []).2 = 1
    · rw [if_pos hr] at hl
      have hle : (facLoop maxp m m (M0 maxp m, 0) []).1 = l := Option.some_inj.mp hl
      rw [← hle]
      rw [hr, mul_one, hinit, one_mul] at ha
      exact ha
    · rw [if_neg hr] at hl; exact absurd hl (by simp)

theorem isSmooth_pow2_mul {maxp e q m : ℕ} (hp : 2 ≤ maxp) (hrec : m = 2 ^ e * q) :
    IsSmooth maxp m ↔ IsSmooth maxp q := by
  constructor
  · intro hs r hr hrd
    exact hs r hr (hrd.trans ⟨2 ^ e, by rw [hrec]; ring⟩)
  · intro hs r hr hrd
    rw [hrec] at hrd
    rcases (Nat.Prime.dvd_mul hr).mp hrd with h | h
    · have h2 : r = 2 := (Nat.prime_dvd_prime_iff_eq hr Nat.prime_two).mp
        (hr.dvd_of_dvd_pow h)
      omega
    · exact hs r hr h

/-- C1: after `setup(maxPrime, maxCofactor)` completes, for every
`1 ≤ m ≤` the (adjusted, odd) cofactor bound, the offset-table entry for
`m` is non-absent iff every prime factor of `m` is at most the prime
bound, and a non-absent entry's recorded factorization multiplies out to
exactly `m`.  (`setup` is only ever called with `maxp ≥ 2`: the CLI
driver passes `maxp = fac_s(maxt) ≥ 3`.) -/
theorem setup_offset_correct (maxp maxm m : ℕ) (hp : 2 ≤ maxp) (h1 : 1 ≤ m)
    (hm : m ≤ maxmAdj maxm) :
    ((MfacT maxp maxm m).isSome ↔ IsSmooth maxp m) ∧
      ∀ l, MfacT maxp maxm m = some l → prodPairs l = m := by
  unfold MfacT
  rw [if_neg (by omega)]
  by_cases hm1 : m = 1
  · subst hm1
    rw [if_pos rfl]
    constructor
    · exact iff_of_true rfl (fun p hpr hd => absurd (Nat.dvd_one.mp hd) hpr.one_lt.ne')
    · intro l hl
      rw [← Option.some_inj.mp hl]
      rfl
  · rw [if_neg hm1]
    by_cases hodd : m % 2 = 1
    · rw [if_pos hodd]
      exact MfacOdd_spec maxp m h1
    · rw [if_neg hodd]
      obtain ⟨hrec, hoddq⟩ := v2_spec m h1
      set e := v2 m with he
      set q := m / 2 ^ e with hq
      have hq1 : 1 ≤ q := by
        rcases Nat.eq_zero_or_pos q with h0 | h0
        · rw [h0, Nat.mul_zero] at hrec; omega
        · exact h0
      have hsm := isSmooth_pow2_mul (q := q) (m := m) (e := e) hp hrec
      have hPn1 : Pnth 1 = 2 := rfl
      have hone : prodPairs [(1, e)] = 2 ^ e := by
        simp only [prodPairs, ppVal, List.map_cons, List.map_nil, List.prod_cons,
          List.prod_nil]
        rw [hPn1, mul_one]
      by_cases hqe : q = 1
      · rw [if_pos hqe, Option.map_some']
        constructor
        · refine iff_of_true rfl (hsm.mpr ?_)
          intro p hpr hd
          rw [hqe] at hd
          exact absurd (Nat.dvd_one.mp hd) hpr.one_lt.ne'
        · intro l hl
          rw [← Option.some_inj.mp hl, List.nil_append, hone, hrec, hqe, mul_one]
      · rw [if_neg hqe]
        obtain ⟨hiff, hprod⟩ := MfacOdd_spec maxp q hq1
        cases hMo : MfacOdd maxp q with
        | none =>
          rw [Option.map_none']
          constructor
          · refine iff_of_false (by simp) (fun hs => ?_)
            rw [hMo] at hiff
            exact absurd (hiff.mpr (hsm.mp hs)) (by simp)
          · intro l hl; exact absurd hl (by simp)
        | some l0 =>
          rw [Option.map_some']
          constructor
          · refine iff_of_true rfl (hsm.mpr ?_)
            rw [hMo] at hiff
            exact hiff.mp (by simp)
          · intro l hl
            rw [← Option.some_inj.mp hl, prodPairs_append, hprod l0 hMo, hone, hrec]
            ring

/-- Witness for the table-correctness theorem at the concrete instance
`maxp = 5`, `maxm = 10`, `m = 8`. -/
theorem setup_offset_correct_witness :
    IsSmooth 5 8 ∧ prodPairs ((MfacT 5 10 8).getD []) = 8 := by
  have h := setup_offset_correct 5 10 8 (by decide) (by decide) (by decide)
  constructor
  · exact h.1.mp (by decide)
  · have h8 : MfacT 5 10 8 = some [(1, 3)] := by decide
    have := h.2 [(1, 3)] h8
    rw [h8]
    exact this

/-! ## Valuation capacity helpers (`fcnt`/`fcnti`, lines 143-160)

A valuation vector `E` maps prime indices to `int64` exponents; we model
it as `ℕ → ℤ`.  C `int64` division truncates toward zero, i.e. it is
`Int.tdiv`; on the nonnegative operands the program uses it agrees with
floor division. -/

/-- The C helper `fcnt`: `min(e, v_m(P^E))` where `m` has factorization
`f`. -/
def fcnt (E : ℕ → ℤ) (e : ℤ) (f : List (ℕ × ℕ)) : ℤ :=
  f.foldl (fun a x => min a (Int.tdiv (E x.1) (x.2 : ℤ))) e

/-- The C helper `fcnti`: `v_{p·m}(P^E)` for `p = P[i]` and `m` with
factorization `f` (where `p ∣ m` is allowed and handled by the extra `+1`
in the head exponent). -/
def fcnti (E : ℕ → ℤ) (i : ℕ) (f : List (ℕ × ℕ)) : ℤ :=
  fcnt E
    (match f with
      | [] => E i
      | x :: _ => if x.1 < i then E i else Int.tdiv (E i) ((x.2 : ℤ) + 1))
    f

/-- Subtracting `k` copies of the per-prime contribution of a
factorization from a valuation vector (the ubiquitous
`for (f...) E[f->pi] -= k*f->e` loops). -/
def subF (E : ℕ → ℤ) (k : ℤ) (f : List (ℕ × ℕ)) : ℕ → ℤ :=
  f.foldl (fun Ea x => Function.update Ea x.1 (Ea x.1 - k * (x.2 : ℤ))) E

theorem fcnt_cons (E : ℕ → ℤ) (e : ℤ) (x : ℕ × ℕ) (f : List (ℕ × ℕ)) :
    fcnt E e (x :: f) = fcnt E (min e (Int.tdiv (E x.1) (x.2 : ℤ))) f := rfl

theorem fcnt_le_cap (E : ℕ → ℤ) (f : List (ℕ × ℕ)) :
    ∀ e : ℤ, fcnt E e f ≤ e := by
  induction f with
  | nil => intro e; exact le_refl e
  | cons x f ih =>
    intro e
    calc fcnt E e (x :: f) ≤ min e (Int.tdiv (E x.1) (x.2 : ℤ)) := ih _
      _ ≤ e := min_le_left _ _

theorem fcnt_le_pair (E : ℕ → ℤ) (f : List (ℕ × ℕ)) :
    ∀ e : ℤ, ∀ x ∈ f, fcnt E e f ≤ Int.tdiv (E x.1) (x.2 : ℤ) := by
  induction f with
  | nil => intro e x hx; exact absurd hx (List.not_mem_nil x)
  | cons y f ih =>
    intro e x hx
    rcases List.mem_cons.mp hx with h | h
    · subst h
      calc fcnt E e (x :: f) ≤ min e (Int.tdiv (E x.1) (x.2 : ℤ)) := fcnt_le_cap E f _
        _ ≤ _ := min_le_right _ _
    · exact ih _ x h

theorem le_fcnt (E : ℕ → ℤ) (f : List (ℕ × ℕ)) :
    ∀ e b : ℤ, b ≤ e → (∀ x ∈ f, b ≤ Int.tdiv (E x.1) (x.2 : ℤ)) →
      b ≤ fcnt E e f := by
  induction f with
  | nil => intro e b hb _; exact hb
  | cons x f ih =>
    intro e b hb hf
    exact ih _ b (le_min hb (hf x (List.mem_cons_self x f)))
      (fun y hy => hf y (List.mem_cons_of_mem x hy))

theorem subF_nonneg_of (k : ℤ) (_hk : 0 ≤ k) :
    ∀ (f : List (ℕ × ℕ)) (E : ℕ → ℤ), (f.map Prod.fst).Nodup →
      (∀ i, 0 ≤ E i) → (∀ x ∈ f, k * (x.2 : ℤ) ≤ E x.1) →
      ∀ i, 0 ≤ subF E k f i := by
  intro f
  induction f with
  | nil => intro E _ hE _ i; exact hE i
  | cons x f ih =>
    intro E hnd hE hb i
    rw [List.map_cons, List.nodup_cons] at hnd
    obtain ⟨hx1, hnd'⟩ := hnd
    show 0 ≤ subF (Function.update E x.1 (E x.1 - k * (x.2 : ℤ))) k f i
    refine ih (Function.update E x.1 (E x.1 - k * (x.2 : ℤ))) hnd' ?_ ?_ i
    · intro j
      by_cases hj : j = x.1
      · subst hj
        rw [Function.update_same]
        have := hb x (List.mem_cons_self x f)
        omega
      · rw [Function.update_noteq hj]
        exact hE j
    · intro y hy
      have hne : y.1 ≠ x.1 := by
        intro hcon
        exact hx1 (hcon ▸ List.mem_map_of_mem Prod.fst hy)
      rw [Function.update_noteq hne]
      exact hb y (List.mem_cons_of_mem x hy)

/-- C5: `capacity(E, cap, f)` (the helper `fcnt`) equals
`min(cap, min over pairs (i,e) of f of floor(E[i]/e))` — stated as: it is
the greatest lower bound of `cap` and the per-pair quotients — hence it
never exceeds `cap`, and (for a factorization with pairwise-distinct prime
indices, as every recorded factorization has, on a nonnegative valuation
vector) subtracting `capacity` copies of `f`'s per-prime contribution
leaves every component nonnegative. -/
theorem fcnt_capacity (E : ℕ → ℤ) (cap : ℤ) (f : List (ℕ × ℕ))
    (hcap : 0 ≤ cap) (hE : ∀ i, 0 ≤ E i) (hnd : (f.map Prod.fst).Nodup) :
    fcnt E cap f ≤ cap ∧
      (∀ x ∈ f, fcnt E cap f ≤ Int.tdiv (E x.1) (x.2 : ℤ)) ∧
      (∀ b : ℤ, b ≤ cap → (∀ x ∈ f, b ≤ Int.tdiv (E x.1) (x.2 : ℤ)) →
        b ≤ fcnt E cap f) ∧
      (∀ i, 0 ≤ subF E (fcnt E cap f) f i) := by
  have h0 : 0 ≤ fcnt E cap f :=
    le_fcnt E f cap 0 hcap (fun x _ => Int.tdiv_nonneg (hE x.1) (by positivity))
  refine ⟨fcnt_le_cap E f cap, fcnt_le_pair E f cap, le_fcnt E f cap, ?_⟩
  refine subF_nonneg_of (fcnt E cap f) h0 f E hnd hE (fun x hx => ?_)
  have hle := fcnt_le_pair E f cap x hx
  by_cases he : (x.2 : ℤ) = 0
  · rw [he, mul_zero]; exact hE x.1
  · have he' : (0 : ℤ) < (x.2 : ℤ) := by omega
    calc fcnt E cap f * (x.2 : ℤ) ≤ Int.tdiv (E x.1) (x.2 : ℤ) * (x.2 : ℤ) := by
          exact mul_le_mul_of_nonneg_right hle (by omega)
      _ ≤ E x.1 := by
          rw [Int.tdiv_eq_ediv (hE x.1) (by omega)]
          exact Int.ediv_mul_le (E x.1) (by omega)

/-- Witness for the capacity theorem at a concrete instance: the valuation
vector `E = (0, 5, 3, 2, 0, ...)`, cap `7`, factorization `6 = 2·3`. -/
theorem fcnt_capacity_witness :
    fcnt (fun i => if i = 1 then 5 else if i = 2 then 3 else if i = 3 then 2 else 0)
        7 [(2, 1), (1, 1)] = 3 ∧
      fcnt (fun i => if i = 1 then 5 else if i = 2 then 3 else if i = 3 then 2 else 0)
          7 [(2, 1), (1, 1)] ≤ 7 ∧
      ∀ i, 0 ≤ subF
        (fun i => if i = 1 then 5 else if i = 2 then 3 else if i = 3 then 2 else 0)
        (fcnt (fun i => if i = 1 then 5 else if i = 2 then 3 else if i = 3 then 2 else 0)
          7 [(2, 1), (1, 1)]) [(2, 1), (1, 1)] i := by
  have h := fcnt_capacity
    (fun i => if i = 1 then 5 else if i = 2 then 3 else if i = 3 then 2 else 0)
    7 [(2, 1), (1, 1)] (by decide)
    (fun i => by by_cases h1 : i = 1 <;> by_cases h2 : i = 2 <;>
      by_cases h3 : i = 3 <;> simp [h1, h2, h3])
    (by decide)
  exact ⟨by decide, h.1, h.2.2.2⟩

/-! ## FactorizationCertificate (`struct fac`, lines 169-277)

A factor record holds a count `n`, a cofactor `m` with its factorization
`f`, and a prime range `(p, q]` with a prime count `c`.  `fac_extend`
models the C function of the same name including its
`assert(m*(p+1) >= v->t)` (a failed assert aborts the process, modelled
by `none`). -/

/-- One certificate record (`struct fac_item`). -/
structure FacItem where
  n : ℤ
  m : ℕ
  f : List (ℕ × ℕ)
  p : ℕ
  q : ℕ
  c : ℤ
deriving DecidableEq

/-- A certificate under construction (`struct fac`). -/
structure Fac where
  N : ℕ
  t : ℕ
  L : List FacItem
deriving DecidableEq

/-- The immutable process-wide table context established by `setup`. -/
structure Ctx where
  maxp : ℕ
  maxm : ℕ
deriving DecidableEq

/-- Table lookup `F + M[m]`: an absent `m` has `M[m] = 0` and `F[0]` is a
terminator, which the C loops read as an empty factorization. -/
def facD (ctx : Ctx) (m : ℕ) : List (ℕ × ℕ) :=
  (MfacT ctx.maxp ctx.maxm m).getD []

/-- The leading prime index `F[M[m]].pi` (0 for absent `m` and for `m = 1`). -/
def headPi (ctx : Ctx) (m : ℕ) : ℕ :=
  ((facD ctx m).headD (0, 0)).1

/-- Certificate allocation (`fac_alloc`). -/
def fac_alloc (N t : ℕ) : Fac := ⟨N, t, []⟩

/-- Append one record; aborts (`none`) unless `m*(p+1) ≥ t`
(`assert` at line 195). -/
def fac_extend (v : Fac) (n : ℤ) (m : ℕ) (f : List (ℕ × ℕ)) (p q : ℕ) (c : ℤ) :
    Option Fac :=
  if v.t ≤ m * (p + 1) then some ⟨v.N, v.t, v.L ++ [⟨n, m, f, p, q, c⟩]⟩ else none

/-- `fac_extend_mp`: a single-prime record `(p-1, p]`. -/
def fac_extend_mp (v : Fac) (n : ℤ) (m : ℕ) (f : List (ℕ × ℕ)) (p : ℕ) : Option Fac :=
  fac_extend v n m f (p - 1) p 1

/-- `fac_extend_mp2`: record for `m·P[i]` paired with `P[i]`, with the
extra prime folded into the pair list; aborts unless `f`'s head index is
below `i` and `i` is within the prime table. -/
def fac_extend_mp2 (maxpi : ℕ) (v : Fac) (n : ℤ) (m : ℕ) (f : List (ℕ × ℕ)) (i : ℕ) :
    Option Fac :=
  if (f.headD (0, 0)).1 < i ∧ i ≤ maxpi then
    fac_extend_mp v n (m * Pnth i) ((i, 1) :: f) (Pnth i)
  else none

/-- `fac_extend_m`: record for a product `m` whose factorization is `f`,
reported as `(m / p) · p` for `p` the leading prime of `f`. -/
def fac_extend_m (v : Fac) (n : ℤ) (m : ℕ) (f : List (ℕ × ℕ)) : Option Fac :=
  match f with
  | [] => none
  | (i, e) :: rest =>
    fac_extend_mp v n (m / Pnth i) (if e - 1 = 0 then rest else (i, e - 1) :: rest) (Pnth i)

/-- Fueled integer square root (largest `s` with `s·s ≤ n`), modelling the
C pattern `(int)sqrt(x)`, which is exact for the magnitudes involved
(`x < 2^48`, `double` sqrt correctly rounded). -/
def sqrtAux (n : ℕ) : ℕ → ℕ → ℕ
  | 0, s => s
  | fuel + 1, s => if (s + 1) * (s + 1) ≤ n then sqrtAux n fuel (s + 1) else s

/-- Integer square root. -/
def sqrtE (n : ℕ) : ℕ := sqrtAux n n 0

theorem sqrtAux_spec (n : ℕ) : ∀ fuel s, s * s ≤ n → n ≤ s + fuel →
    sqrtAux n fuel s * sqrtAux n fuel s ≤ n ∧
      n < (sqrtAux n fuel s + 1) * (sqrtAux n fuel s + 1) := by
  intro fuel
  induction fuel with
  | zero =>
    intro s h1 h2
    rw [show sqrtAux n 0 s = s from rfl]
    exact ⟨h1, by nlinarith⟩
  | succ fuel ih =>
    intro s h1 h2
    by_cases hc : (s + 1) * (s + 1) ≤ n
    · rw [show sqrtAux n (fuel + 1) s = sqrtAux n fuel (s + 1) by rw [sqrtAux, if_pos hc]]
      exact ih (s + 1) hc (by omega)
    · rw [show sqrtAux n (fuel + 1) s = s by rw [sqrtAux, if_neg hc]]
      exact ⟨h1, by omega⟩

theorem sqrtE_spec (n : ℕ) :
    sqrtE n * sqrtE n ≤ n ∧ n < (sqrtE n + 1) * (sqrtE n + 1) :=
  sqrtAux_spec n n 0 (by omega) (by omega)

/-- The `s` computation `fac_s` (lines 162-167) with its asserts. -/
def sUp (t : ℕ) : ℕ → ℕ → ℕ
  | 0, s => s
  | fuel + 1, s => if s * (s - 1) < t then sUp t fuel (s + 1) else s

/-- The phase boundary `s` derived from `t` (the least `s ≥ ⌊√t⌋` with
`s(s-1) ≥ t`, i.e. essentially `ceil(sqrt t)`). -/
def sOf (t : ℕ) : ℕ := sUp t (t + 2) (sqrtE t)

/-- Computes the phase boundary, aborting if it exceeds the prime-table
bound (`assert (s <= MAXP)`). -/
def fac_sE (MAXP t : ℕ) : Option ℕ :=
  if ¬ sqrtE t * (sqrtE t - 1) < t then none
  else if sOf t ≤ MAXP then some (sOf t) else none

/-- Fueled computation of `Σ_{k≥1} ⌊N / p^k⌋` (the inner loop of the
valuation computations at lines 238 and 292). -/
def vfactAux (N p : ℕ) : ℕ → ℕ → ℕ
  | 0, _ => 0
  | fuel + 1, q => if q ≤ N then N / q + vfactAux N p fuel (q * p) else 0

/-- The exponent of the prime `p` in `N!` (Legendre sum). -/
def vfact (N p : ℕ) : ℕ := vfactAux N p (N + 1) p

/-- The freshly computed valuation vector `E` for `N!` over prime indices
`1..maxpi`. -/
def E0 (N maxpi : ℕ) : ℕ → ℤ :=
  fun i => if 1 ≤ i ∧ i ≤ maxpi then (vfact N (Pnth i) : ℤ) else 0

/-- Subtract `n` from every component with index in `[lo, hi]`
(the small-prime replay loop of `fac_verify`, line 245). -/
def subRange (E : ℕ → ℤ) (n : ℤ) (lo hi : ℕ) : ℕ → ℤ :=
  (List.range' lo (hi + 1 - lo)).foldl (fun Ea i => Function.update Ea i (Ea i - n)) E

/-- All components with index in `[1, maxpi]` are nonnegative. -/
def nonnegRange (E : ℕ → ℤ) (maxpi : ℕ) : Bool :=
  (List.range' 1 maxpi).all (fun i => decide (0 ≤ E i))

/-- The replay loop of `fac_verify` (lines 240-264): subtract every
record's contribution from the fresh valuation vector, accumulate the
replayed count, abort on any failed `assert`. -/
def verifyLoop (ctx : Ctx) (N sqrtN t maxpi maxpB : ℕ) :
    List FacItem → (ℕ → ℤ) → ℤ → ℕ → ℕ → ℕ → Option ((ℕ → ℤ) × ℤ)
  | [], E, cnt, _, _, _ => some (E, cnt)
  | r :: rs, E, cnt, lastp, lastpi, nextpi =>
    if ¬ (r.n ≠ 0 ∧ r.p < r.q ∧ r.q ≤ N) then none
    else if ¬ (t ≤ r.m * (r.p + 1)) then none
    else if r.q ≤ maxpB then
      let x : ℤ := r.n * ((piFun r.q : ℤ) - (piFun r.p : ℤ))
      let E2 := subF (subRange E r.n (piFun r.p + 1) (piFun r.q)) x r.f
      verifyLoop ctx N sqrtN t maxpi maxpB rs E2 (cnt + x) r.q lastpi nextpi
    else
      let lastpi' := if r.p = lastp ∧ nextpi ≠ 0 then nextpi else piFun r.p
      let nextpi' := piFun r.q
      if ¬ maxpB < r.p + 1 then none
      else if r.q ≤ sqrtN then
        if ¬ ((N / r.q + N / (r.q * r.q) : ℤ) = r.n ∧
            (N / (r.p + 1) + N / ((r.p + 1) * (r.p + 1)) : ℤ) = r.n) then none
        else
          let x : ℤ := r.n * ((nextpi' : ℤ) - (lastpi' : ℤ))
          let E2 := subF E x (facD ctx r.m)
          verifyLoop ctx N sqrtN t maxpi maxpB rs E2 (cnt + x) r.q lastpi' nextpi'
      else
        if ¬ ((N / (r.p + 1) : ℤ) = r.n ∧ (N / r.q : ℤ) = r.n) then none
        else
          let x : ℤ := r.n * ((nextpi' : ℤ) - (lastpi' : ℤ))
          let E2 := subF E x (facD ctx r.m)
          verifyLoop ctx N sqrtN t maxpi maxpB rs E2 (cnt + x) r.q lastpi' nextpi'

/-- The closing pass of `fac_verify` after `s` is known. -/
def fac_verifyAt (ctx : Ctx) (v : Fac) (s : ℕ) : Option ℤ :=
  match verifyLoop ctx v.N (sqrtE v.N) v.t (piFun (s - 1)) (Pnth (piFun (s - 1))) v.L
      (E0 v.N (piFun (s - 1))) 0 0 0 0 with
  | none => none
  | some Ec => if nonnegRange Ec.1 (piFun (s - 1)) then some Ec.2 else none

/-- `fac_verify` (lines 232-269): recompute the valuation vector of `N!`
from scratch, replay every record, and require every component to end
nonnegative.  Returns the replayed total count. -/
def fac_verify (ctx : Ctx) (v : Fac) : Option ℤ :=
  match fac_sE ctx.maxp v.t with
  | none => none
  | some s => fac_verifyAt ctx v s

/-- Certificates reachable by the builder: allocated by `fac_alloc` and
grown only through `fac_extend` (all three wrappers `fac_extend_mp`,
`fac_extend_mp2`, `fac_extend_m` call `fac_extend`). -/
inductive Reached : Fac → Prop
  | alloc (N t : ℕ) : Reached (fac_alloc N t)
  | extend {v v' : Fac} {n : ℤ} {m : ℕ} {f : List (ℕ × ℕ)} {p q : ℕ} {c : ℤ} :
      Reached v → fac_extend v n m f p q c = some v' → Reached v'

theorem Reached.t_eq {v v' : Fac} {n : ℤ} {m : ℕ} {f : List (ℕ × ℕ)} {p q : ℕ} {c : ℤ}
    (h : fac_extend v n m f p q c = some v') : v'.t = v.t := by
  unfold fac_extend at h
  split at h
  · exact (Option.some_inj.mp h).symm ▸ rfl
  · exact absurd h (by simp)

theorem verifyLoop_inv (ctx : Ctx) (N sqrtN t maxpi maxpB : ℕ) :
    ∀ (rs : List FacItem) (E : ℕ → ℤ) (cnt : ℤ) (lastp lastpi nextpi : ℕ) (out : (ℕ → ℤ) × ℤ),
      verifyLoop ctx N sqrtN t maxpi maxpB rs E cnt lastp lastpi nextpi = some out →
      ∀ r ∈ rs, t ≤ r.m * (r.p + 1) := by
  intro rs
  induction rs with
  | nil => intro E cnt lastp lastpi nextpi out _ r hr; exact absurd hr (List.not_mem_nil r)
  | cons r0 rs ih =>
    intro E cnt lastp lastpi nextpi out h r hr
    rw [verifyLoop] at h
    by_cases h1 : ¬ (r0.n ≠ 0 ∧ r0.p < r0.q ∧ r0.q ≤ N)
    · rw [if_pos h1] at h; exact absurd h (by simp)
    · rw [if_neg h1] at h
      by_cases h2 : ¬ (t ≤ r0.m * (r0.p + 1))
      · rw [if_pos h2] at h; exact absurd h (by simp)
      · rw [if_neg h2] at h
        rcases List.mem_cons.mp hr with hre | hre
        · subst hre; omega
        · by_cases h3 : r0.q ≤ maxpB
          · rw [if_pos h3] at h
            exact ih _ _ _ _ _ _ h r hre
          · rw [if_neg h3] at h
            by_cases h4 : ¬ maxpB < r0.p + 1
            · rw [if_pos h4] at h; exact absurd h (by simp)
            · rw [if_neg h4] at h
              by_cases h5 : r0.q ≤ sqrtN
              · rw [if_pos h5] at h
                by_cases h6 : ¬ ((N / r0.q + N / (r0.q * r0.q) : ℤ) = r0.n ∧
                    (N / (r0.p + 1) + N / ((r0.p + 1) * (r0.p + 1)) : ℤ) = r0.n)
                · rw [if_pos h6] at h; exact absurd h (by simp)
                · rw [if_neg h6] at h
                  exact ih _ _ _ _ _ _ h r hre
              · rw [if_neg h5] at h
                by_cases h7 : ¬ ((N / (r0.p + 1) : ℤ) = r0.n ∧ (N / r0.q : ℤ) = r0.n)
                · rw [if_pos h7] at h; exact absurd h (by simp)
                · rw [if_neg h7] at h
                  exact ih _ _ _ _ _ _ h r hre

/-- C10: every record ever appended to a certificate satisfies
`m·(p+1) ≥ t` — `fac_extend` asserts it before appending, so any record a
reachable certificate holds satisfies it — and `fac_verify` re-checks the
same inequality for each record during replay (line 242), so a
verification that returns rechecked every record. -/
theorem cert_record_invariant (v : Fac) :
    (Reached v → ∀ r ∈ v.L, v.t ≤ r.m * (r.p + 1)) ∧
      (∀ ctx cnt, fac_verify ctx v = some cnt → ∀ r ∈ v.L, v.t ≤ r.m * (r.p + 1)) := by
  constructor
  · intro h
    induction h with
    | alloc N t => intro r hr; exact absurd hr (List.not_mem_nil r)
    | extend hv hext ih =>
      rename_i v0 v' n m f p q c
      intro r hr
      unfold fac_extend at hext
      split at hext
      · rw [← Option.some_inj.mp hext] at hr ⊢
        simp only [List.mem_append, List.mem_singleton] at hr
        rcases hr with hr | hr
        · exact ih r hr
        · subst hr
          simpa using (by assumption : v0.t ≤ m * (p + 1))
      · exact absurd hext (by simp)
  · intro ctx cnt h r hr
    unfold fac_verify at h
    cases hs : fac_sE ctx.maxp v.t with
    | none =>
      rw [hs] at h
      exact absurd (h : (none : Option ℤ) = some cnt) (by simp)
    | some s =>
      rw [hs] at h
      have h' : fac_verifyAt ctx v s = some cnt := h
      unfold fac_verifyAt at h'
      cases hvl : verifyLoop ctx v.N (sqrtE v.N) v.t (piFun (s - 1))
          (Pnth (piFun (s - 1))) v.L (E0 v.N (piFun (s - 1))) 0 0 0 0 with
      | none =>
        rw [hvl] at h'
        exact absurd (h' : (none : Option ℤ) = some cnt) (by simp)
      | some out =>
        exact verifyLoop_inv ctx v.N (sqrtE v.N) v.t _ _ v.L _ _ _ _ _ out hvl r hr

/-- Witness: a concrete certificate for `N = 15`, `t = 4` holding one
record (six copies of the factor `2·3`), built by the builder and passing
independent verification with replayed count 6. -/
theorem cert_record_invariant_witness :
    fac_extend_mp (fac_alloc 15 4) 6 2 [(1, 1)] 3 =
        some ⟨15, 4, [⟨6, 2, [(1, 1)], 2, 3, 1⟩]⟩ ∧
      fac_verify ⟨20, 25⟩ ⟨15, 4, [⟨6, 2, [(1, 1)], 2, 3, 1⟩]⟩ = some 6 ∧
      (∀ r ∈ (Fac.mk 15 4 [⟨6, 2, [(1, 1)], 2, 3, 1⟩]).L,
        (Fac.mk 15 4 [⟨6, 2, [(1, 1)], 2, 3, 1⟩]).t ≤ r.m * (r.p + 1)) := by
  refine ⟨by decide, by decide, ?_⟩
  exact (cert_record_invariant ⟨15, 4, [⟨6, 2, [(1, 1)], 2, 3, 1⟩]⟩).1
    (@Reached.extend (fac_alloc 15 4) ⟨15, 4, [⟨6, 2, [(1, 1)], 2, 3, 1⟩]⟩
      6 2 [(1, 1)] 2 3 1 (Reached.alloc 15 4) (by decide))

/-! ## GreedyFactorCounter (`tfac`, lines 279-586)

The counter is embedded as a pure fuel-based function `tfacE`.  Every C
`assert` becomes an `Option` guard (`none` = process abort), as do the two
spots where the C would divide by zero.  The per-invocation mutable state
(the valuation vector `E`, the running count and the optional certificate)
is threaded explicitly as `St`.  The two floating-point-derived tunables —
`mid = (int64)pow(t, MCUTOFF)` and (for the fast variant)
`maxm = (int64)pow(t, 0.625)` — are taken as parameters `midRaw`/`maxmF`;
the spec documents `mid` as a pure performance tunable with no effect on
the result. -/

/-- Ascending list of primes in `[a, b]` (the `primesieve` iterator). -/
def primesBetween (a b : ℕ) : List ℕ :=
  (List.range' a (b + 1 - a)).filter isPrimeB

/-- Array read `E[i]`: the valuation vector of `tfac` is the C array
`int64_t E[maxpi+1]` (line 291), modelled as a `List ℤ`; every access the
program makes is within bounds. -/
def getE (E : List ℤ) (i : ℕ) : ℤ := E.getD i 0

/-- The per-factorization subtraction loop on the array model:
`for (f ...; f->pi; f++) E[f->pi] -= k * f->e`. -/
def subFL (E : List ℤ) (k : ℤ) (f : List (ℕ × ℕ)) : List ℤ :=
  f.foldl (fun a x => a.set x.1 (a.getD x.1 0 - k * (x.2 : ℤ))) E

/-- The freshly computed valuation array (lines 291-292): `calloc` zeroes
`E[0..maxpi]`, then `E[i] = v_{P[i]}(N!)` for `1 ≤ i ≤ maxpi`. -/
def E0L (N maxpi : ℕ) : List ℤ :=
  (List.range (maxpi + 1)).map (fun i => if 1 ≤ i then (vfact N (Pnth i) : ℤ) else 0)

/-- Invocation-local mutable state of `tfac`: the valuation vector, the
running factor count, and the optional certificate. -/
structure St where
  E : List ℤ
  cnt : ℤ
  v : Option Fac

/-- Record a range of factors into the certificate if one is being built. -/
def recX (st : St) (n : ℤ) (m : ℕ) (f : List (ℕ × ℕ)) (p q : ℕ) (c : ℤ) : Option St :=
  match st.v with
  | none => some st
  | some v =>
    match fac_extend v n m f p q c with
    | none => none
    | some v' => some { st with v := some v' }

/-- Record a single-prime factor class into the certificate. -/
def recMP (st : St) (n : ℤ) (m : ℕ) (f : List (ℕ × ℕ)) (p : ℕ) : Option St :=
  match st.v with
  | none => some st
  | some v =>
    match fac_extend_mp v n m f p with
    | none => none
    | some v' => some { st with v := some v' }

/-- Record a `p²`-type factor class into the certificate. -/
def recMP2 (maxPI : ℕ) (st : St) (n : ℤ) (m : ℕ) (f : List (ℕ × ℕ)) (i : ℕ) : Option St :=
  match st.v with
  | none => some st
  | some v =>
    match fac_extend_mp2 maxPI v n m f i with
    | none => none
    | some v' => some { st with v := some v' }

/-- Minimize `m` with `m·p ≥ t` (the `while ((m-1)*p >= t) m--;` of
line 344). -/
def stepm (t p : ℕ) : ℕ → ℕ
  | 0 => 0
  | m + 1 => if t ≤ m * p then stepm t p m else m + 1

/-- Update `m` in tier (b): `while (p > pmmax) { m--; pmmax = (t-1)/(m-1); }`
(line 363). -/
def stepmB (t p : ℕ) : ℕ → ℕ
  | 0 => 0
  | 1 => 1
  | m + 2 => if (t - 1) / (m + 1) < p then stepmB t p (m + 1) else m + 2

/-- Update `n` in tier (b): `while (p > pnmax) { n--; pnmax = N/n; }`
(line 364). -/
def stepnB (N p : ℕ) : ℕ → ℕ
  | 0 => 0
  | n + 1 => if N / (n + 1) < p then stepnB N p n else n + 1

/-- Tier (a) of phase 1 (lines 343-350): primes `p ∈ [s, sqrt N]`, one
factor class `m·p` per prime with `n = N/p + N/p²` copies. -/
def tierA (ctx : Ctx) (N t : ℕ) : List ℕ → ℕ → St → Option (ℕ × St)
  | [], m, st => some (m, st)
  | p :: ps, m, st =>
    let m' := stepm t p m
    let n : ℤ := (N / p + N / (p * p) : ℕ)
    let st' : St := { st with E := subFL st.E n (facD ctx m'), cnt := st.cnt + n }
    match recMP st' n m' (facD ctx m') p with
    | none => none
    | some st'' => tierA ctx N t ps m' st''

/-- Tier (b) of phase 1 (lines 361-371): primes in `(sqrt N, (t-1)/mid]`,
batched by constant `(m, n)`. -/
def tierB (ctx : Ctx) (N t plmmax : ℕ) :
    ℕ → List ℕ → ℕ → ℕ → ℕ → St → Option St
  | 0, _, _, _, _, _ => none
  | _ + 1, [], _, _, _, st => some st
  | fuel + 1, p :: ps, m, n, pmin, st =>
    if p ≤ plmmax then
      let m' := stepmB t p m
      if m' ≤ 1 then none
      else
        let pmmax := (t - 1) / (m' - 1)
        let n' := stepnB N p n
        if n' = 0 then none
        else
          let pnmax := N / n'
          let pmax := min pmmax pnmax
          if ¬ p ≤ pmax then none
          else
            let c : ℤ := 1 + (ps.takeWhile (fun q => decide (q ≤ pmax))).length
            let rest := ps.dropWhile (fun q => decide (q ≤ pmax))
            let st' := { st with E := subFL st.E (c * n') (facD ctx m'),
                                 cnt := st.cnt + c * n' }
            match recX st' n' m' (facD ctx m') pmin pmax c with
            | none => none
            | some st'' =>
              tierB ctx N t plmmax fuel rest m' n' (rest.headD (t + 2) - 1) st''
    else some st

/-- Inner loop of tier (c) (lines 382-389): for fixed cofactor `m`, count
primes in ranges of constant valuation `n` via the π oracle. -/
def tierCInner (ctx : Ctx) (N t pmax m : ℕ) :
    ℕ → ℕ → ℕ → ℕ → ℕ → St → Option (ℕ × ℕ × St)
  | 0, _, _, _, _, _ => none
  | fuel + 1, pmin, n, pnmax, lastpi, st =>
    if pmin < pmax then
      let nextpi := piFun pnmax
      let c : ℤ := (nextpi : ℤ) - (lastpi : ℤ)
      let st' := { st with E := subFL st.E (c * n) (facD ctx m), cnt := st.cnt + c * n }
      match recX st' n m (facD ctx m) pmin pnmax c with
      | none => none
      | some st'' =>
        if n - 1 = 0 then none
        else
          tierCInner ctx N t pmax m fuel pnmax (n - 1) (min (N / (n - 1)) pmax) nextpi st''
    else some (pmin, lastpi, st)

/-- Tier (c) of phase 1 (lines 379-390): iterate the cofactor `m` from
`mid` down to `2`. -/
def tierC (ctx : Ctx) (N t : ℕ) : ℕ → ℕ → ℕ → St → Option (ℕ × ℕ × St)
  | 0, pmin, lastpi, st => some (pmin, lastpi, st)
  | 1, pmin, lastpi, st => some (pmin, lastpi, st)
  | m + 2, pmin, lastpi, st =>
    let p := cdiv t (m + 2)
    if N / p = 0 then none
    else
      let n := N / p
      let pmax := (t - 1) / (m + 1)
      match tierCInner ctx N t pmax (m + 2) (N + 2) pmin n (min (N / n) pmax) lastpi st with
      | none => none
      | some (pmin', lastpi', st') => tierC ctx N t (m + 1) pmin' lastpi' st'

/-- Final bands of phase 1 (lines 395-406): primes in `[t, N]` with
cofactor 1 and valuation 3, 2 or 1 by pure size arguments. -/
def bandsAll (ctx : Ctx) (N t : ℕ) (lastpi : ℕ) (st : St) : Option St :=
  match (if 3 * t ≤ N then
      (let nextpi := piFun (N / 3)
       match recX { st with cnt := st.cnt + 3 * ((nextpi : ℤ) - (lastpi : ℤ)) }
           3 1 (facD ctx 1) (t - 1) (N / 3) ((nextpi : ℤ) - (lastpi : ℤ)) with
       | none => none
       | some st' => some (nextpi, st'))
    else some (lastpi, st)) with
  | none => none
  | some (lastpi1, st1) =>
    let nextpi2 := piFun (N / 2)
    match recX { st1 with cnt := st1.cnt + 2 * ((nextpi2 : ℤ) - (lastpi1 : ℤ)) }
        2 1 (facD ctx 1) (max (t - 1) (N / 3)) (N / 2)
        ((nextpi2 : ℤ) - (lastpi1 : ℤ)) with
    | none => none
    | some st2 =>
      let nextpi3 := piFun N
      recX { st2 with cnt := st2.cnt + ((nextpi3 : ℤ) - (nextpi2 : ℤ)) }
        1 1 (facD ctx 1) (N / 2) N ((nextpi3 : ℤ) - (nextpi2 : ℤ))

/-- Cursor advance of the standard greedy loop (line 437):
`while (j <= numm && (P[i]*Ms[j] < t || F[M[Ms[j]]].pi > i)) j++;`. -/
def findJStd (ctx : Ctx) (t : ℕ) (Ms : List ℕ) (numm i : ℕ) : ℕ → ℕ → ℕ
  | 0, j => j
  | fuel + 1, j =>
    if j ≤ numm ∧ (Pnth i * Ms.getD j 0 < t ∨ i < headPi ctx (Ms.getD j 0)) then
      findJStd ctx t Ms numm i fuel (j + 1)
    else j

/-- Multiply `q` by `p` up to `x` times while `q < t` (inner loop of the
early-exit check, line 445). -/
def powCap (t p : ℕ) : ℕ → ℕ → ℕ
  | 0, q => q
  | x + 1, q => if q < t then powCap t p x (q * p) else q

/-- The early-exit residual estimate (lines 443-445): multiply the
remaining prime powers from index `i` down, capped at `t`. -/
def resCapGo (E : List ℤ) (t : ℕ) : ℕ → ℕ → ℕ
  | 0, q => q
  | ii + 1, q => resCapGo E t ii (powCap t (Pnth (ii + 1)) (getE E (ii + 1)).toNat q)

/-- Skip exhausted prime indices: `while (i && !E[i]) i--;`. -/
def skipZ (E : List ℤ) : ℕ → ℕ
  | 0 => 0
  | i + 1 => if getE E (i + 1) = 0 then skipZ E i else i + 1

/-- One extraction's state update: `E[i] -= k`, then `E -= e·f` and
`cnt += e`. -/
def doSub (st : St) (i : ℕ) (k e : ℤ) (f : List (ℕ × ℕ)) : St :=
  { st with E := subFL (st.E.set i (getE st.E i - k)) e f, cnt := st.cnt + e }

/-- The standard greedy second phase (lines 432-453). -/
def phase2Std (ctx : Ctx) (t numm : ℕ) (Ms : List ℕ) :
    ℕ → ℕ → ℕ → ℤ → St → Option St
  | 0, _, _, _, _ => none
  | fuel + 1, i, j, pcnt, st =>
    if i = 0 then some st
    else
      let j' := findJStd ctx t Ms numm i (numm + 2) j
      if numm < j' then some st
      else
        let f := facD ctx (Ms.getD j' 0)
        if ¬ (f.headD (0, 0)).1 ≤ i then none
        else
          let e := fcnti (getE st.E) i f
          if e = 0 then
            if pcnt < 40 ∧ resCapGo st.E t i 1 < t then some st
            else phase2Std ctx t numm Ms fuel i (j' + 1) pcnt st
          else
            let st' := doSub st i e e f
            let pcnt' := pcnt - e - e * (f.map (fun x => (x.2 : ℤ))).sum
            match recMP st' e (Ms.getD j' 0) f (Pnth i) with
            | none => none
            | some st'' => phase2Std ctx t numm Ms fuel (skipZ st''.E i) j' pcnt' st''

/-- Cursor advance of the fast greedy loop (line 469); the C loop has no
`j ≤ numm` check (it never runs past the end for `i ≥ pimin`), so running
past the end is modelled as an abort. -/
def findJFast (ctx : Ctx) (t : ℕ) (Ms : List ℕ) (numm i : ℕ) : ℕ → ℕ → Option ℕ
  | 0, _ => none
  | fuel + 1, j =>
    if numm < j then none
    else if Pnth i * Ms.getD j 0 < t ∨ i ≤ headPi ctx (Ms.getD j 0) then
      findJFast ctx t Ms numm i fuel (j + 1)
    else some j

/-- Linear scan for the candidate cofactor giving the largest extraction
(lines 489-493 and 501-505): the best value, its factorization and the
winning cofactor; stops early when the cap `brk` is reached. -/
def scanBest (ctx : Ctx) (Ms : List ℕ) (E : List ℤ) (cap brk : ℤ) :
    List ℕ → ℤ × List (ℕ × ℕ) × ℕ → ℤ × List (ℕ × ℕ) × ℕ
  | [], acc => acc
  | k :: ks, acc =>
    let x := fcnt (getE E) cap (facD ctx (Ms.getD k 0))
    if acc.1 < x then
      if x = brk then (x, facD ctx (Ms.getD k 0), Ms.getD k 0)
      else scanBest ctx Ms E cap brk ks (x, facD ctx (Ms.getD k 0), Ms.getD k 0)
    else scanBest ctx Ms E cap brk ks acc

/-- Per-prime pass of the fast greedy second phase (lines 466-513). -/
def phase2Fast (ctx : Ctx) (t numm pimin maxPI : ℕ) (Ms : List ℕ) :
    ℕ → ℕ → St → Option St
  | 0, _, st => some st
  | i + 1, j, st =>
    if i + 1 < pimin then some st
    else
      match findJFast ctx t Ms numm (i + 1) (numm + 2) j with
      | none => none
      | some j' =>
        let ii := i + 1
        let p := Pnth ii
        let f := facD ctx (Ms.getD j' 0)
        match (if fcnt (getE st.E) (getE st.E ii) f < getE st.E ii then
            (let m2 := cdiv t (p * p)
             let g := facD ctx m2
             let e2 := fcnt (getE st.E) (Int.tdiv (getE st.E ii) 2) g
             if e2 = 0 then some st
             else
               match recMP2 maxPI st e2 m2 g ii with
               | none => none
               | some st1 => some (doSub st1 ii (2 * e2) e2 g))
          else some st) with
        | none => none
        | some stA =>
          let eA := fcnt (getE stA.E) (getE stA.E ii) f
          match (if eA ≠ 0 then
              (match recMP stA eA (Ms.getD j' 0) f p with
               | none => none
               | some st2 => some (doSub st2 ii eA eA f))
            else some stA) with
          | none => none
          | some stB =>
            if getE stB.E ii = 0 then phase2Fast ctx t numm pimin maxPI Ms i j' stB
            else
              let sc1 := scanBest ctx Ms stB.E (getE stB.E ii) (getE stB.E ii)
                (List.range' (j' + 1) (numm - j')) (0, [], 0)
              match (if sc1.1 ≠ 0 then
                  (match recMP stB sc1.1 sc1.2.2 sc1.2.1 p with
                   | none => none
                   | some st3 => some (doSub st3 ii sc1.1 sc1.1 sc1.2.1))
                else some stB) with
              | none => none
              | some stC =>
                if getE stC.E ii = 0 then phase2Fast ctx t numm pimin maxPI Ms i j' stC
                else
                  let m0 := cdiv t (p * p) + 1
                  if ¬ Ms.getD m0 0 = m0 then none
                  else
                    let sc2 := scanBest ctx Ms stC.E (Int.tdiv (getE stC.E ii) 2)
                      (getE stC.E ii)
                      (List.range' m0 (numm + 1 - m0)) (0, [], 0)
                    match (if sc2.1 ≠ 0 then
                        (match recMP2 maxPI stC sc2.1 sc2.2.2 sc2.2.1 ii with
                         | none => none
                         | some st4 => some (doSub st4 ii (2 * sc2.1) sc2.1 sc2.2.1))
                      else some stC) with
                    | none => none
                    | some stD => phase2Fast ctx t numm pimin maxPI Ms i j' stD

/-- Append one prime index to the running product factorization
(lines 533 and 555: increment the last exponent or start a new pair). -/
def appendInc : List (ℕ × ℕ) → ℕ → List (ℕ × ℕ)
  | [], i => [(i, 1)]
  | [x], i => if x.1 = i then [(x.1, x.2 + 1)] else [x, (i, 1)]
  | x :: xs, i => x :: appendInc xs i

/-- The product-assembly loop of the packing phase (line 531:
`while (i && q*P[i] < good)`). -/
def assemble (good : ℕ) : ℕ → ℕ → ℕ → List (ℕ × ℕ) → List ℤ →
    Option (ℕ × ℕ × List (ℕ × ℕ) × List ℤ)
  | 0, _, _, _, _ => none
  | fuel + 1, i, q, c, E =>
    if i ≠ 0 ∧ q * Pnth i < good then
      let E' := E.set i (getE E i - 1)
      assemble good fuel (skipZ E' i) (q * Pnth i) (appendInc c i) E'
    else some (i, q, c, E)

/-- The cofactor search of the packing phase (lines 542-546); returns the
best capacity, its factorization, and the loop-exit value of `m` (the C
code later multiplies `q` by that exit value, line 551). -/
def packScan (ctx : Ctx) (E : List ℤ) (e : ℤ) (mhi : ℕ) :
    ℕ → ℕ → ℤ × List (ℕ × ℕ) → ℤ × List (ℕ × ℕ) × ℕ
  | 0, m, acc => (acc.1, acc.2, m)
  | fuel + 1, m, acc =>
    if m < mhi then
      let x := fcnt (getE E) e (facD ctx m)
      let acc' := if acc.1 < x then (x, facD ctx m) else acc
      if x = e then (acc'.1, acc'.2, m)
      else packScan ctx E e mhi fuel (m + 1) acc'
    else (acc.1, acc.2, m)

/-- Emit one packed factor (lines 562-564): record it, add its count, and
remove the remaining `e-1` copies of the assembled product from `E`. -/
def packEmit (st : St) (e : ℤ) (q : ℕ) (c : List (ℕ × ℕ)) : Option St :=
  match st.v with
  | none => some { st with E := subFL st.E (e - 1) c, cnt := st.cnt + e }
  | some v =>
    match fac_extend_m v e q c with
    | none => none
    | some v' => some { st with E := subFL st.E (e - 1) c, cnt := st.cnt + e, v := some v' }

/-- The residual packing loop of the fast variant (lines 518-567).
Returns the final state, the partially assembled factorization left over
at a `break` (restored by the caller, line 568), and the final `maxpi`. -/
def packLoop (ctx : Ctx) (t good s : ℕ) :
    ℕ → ℕ → St → Option (St × List (ℕ × ℕ) × ℕ)
  | 0, _, _ => none
  | fuel + 1, maxpi, st =>
    let i0 := skipZ st.E maxpi
    if i0 = 0 then some (st, [], 0)
    else
      let E1 := st.E.set i0 (getE st.E i0 - 1)
      let c0 := [(i0, 1)]
      let i1 := skipZ E1 i0
      if i1 = 0 then some ({ st with E := E1 }, c0, i0)
      else
        match assemble good (fuel + 1) i1 (Pnth i0) c0 E1 with
        | none => none
        | some (i2, q2, c2, E2) =>
          if i2 = 0 ∧ q2 < t then some ({ st with E := E2 }, c2, i0)
          else
            let hd := c2.headD (0, 1)
            let e0 := 1 + fcnt (getE E2) (Int.tdiv (getE E2 hd.1) (hd.2 : ℤ)) c2.tail
            if t ≤ q2 then
              match packEmit { st with E := E2 } e0 q2 c2 with
              | none => none
              | some st' => packLoop ctx t good s fuel i2 st'
            else
              if ¬ s < q2 then none
              else
                let mhi := Pnth ((c2.getLastD (0, 1)).1)
                let sc := packScan ctx E2 e0 mhi (mhi + 2) (cdiv t q2) (0, [])
                if sc.1 ≠ 0 then
                  let q3 := q2 * sc.2.2
                  if q3 < t then none
                  else
                    match packEmit { st with E := subFL E2 1 sc.2.1 } sc.1 q3
                        (c2 ++ sc.2.1) with
                    | none => none
                    | some st' => packLoop ctx t good s fuel i2 st'
                else
                  if i2 = 0 then some ({ st with E := E2 }, c2, i0)
                  else
                    let q3 := q2 * Pnth i2
                    let E3 := E2.set i2 (getE E2 i2 - 1)
                    let c3 := appendInc c2 i2
                    let hd3 := c3.headD (0, 1)
                    let b := 1 + fcnt (getE E3) (Int.tdiv (getE E3 hd3.1) (hd3.2 : ℤ)) c3.tail
                    if b = 0 then none
                    else if q3 < t then none
                    else
                      match packEmit { st with E := E3 } b q3 c3 with
                      | none => none
                      | some st' => packLoop ctx t good s fuel i2 st'

/-- Residual product `q = Π P[i]^E[i]` over `i ≤ maxpi` (line 575). -/
def residProd (E : List ℤ) : ℕ → ℕ
  | 0 => 1
  | i + 1 => residProd E i * Pnth (i + 1) ^ (getE E (i + 1)).toNat

/-- Closing sequence of `tfac` (lines 571-585): check the residual
invariants (`E[i] ≥ 0` and residual `q < t`), then run the certificate
verification when one was built. -/
def tfacFinish (ctx : Ctx) (t maxpiF : ℕ) (st : St) : Option (ℤ × Option Fac) :=
  if ¬ (nonnegRange (getE st.E) maxpiF ∧ residProd st.E maxpiF < t) then none
  else
    match st.v with
    | none => some (st.cnt, none)
    | some v =>
      match fac_verify ctx v with
      | none => none
      | some _ => some (st.cnt, some v)

/-- Main body of `tfac` after the precondition asserts (lines 300-585). -/
def tfacMain (ctx : Ctx) (N t : ℕ) (fast : Bool) (maxmF midRaw : ℕ) (wc : Bool)
    (fuel s : ℕ) : Option (ℤ × Option Fac) :=
  let sqrtN := sqrtE N
  let maxpi := piFun (s - 1)
  let maxm0 := if fast then maxmF else t - 1
  let cands := (List.range' s (maxm0 + 1 - s)).filter
    (fun m => decide (headPi ctx m ≠ 0) &&
      decide (headPi ctx m ≤ (if fast then piFun (t / m) else maxpi)))
  let Ms := (0 :: List.range' 1 (s - 1)) ++ cands
  let numm := Ms.length - 1
  let maxm := Ms.getLastD 0
  if ¬ (cdiv t s ≤ maxm ∧ Ms.getD (cdiv t s) 0 = cdiv t s) then none
  else
    let mid0 := min midRaw ((t - 1) / sqrtN)
    let mid := if t ≤ sqrtN * mid0 then (t - 1) / sqrtN else mid0
    if mid = 0 then none
    else
      let plmmax := (t - 1) / mid
      let PL := primesBetween s (t - 1)
      match tierA ctx N t (PL.takeWhile (fun p => decide (p ≤ sqrtN))) (cdiv t s)
          ⟨E0L N maxpi, 0, if wc then some (fac_alloc N t) else none⟩ with
      | none => none
      | some (mA, stA) =>
        if mA ≤ 1 then none
        else
          let p0 := nextPrime (max (s - 1) sqrtN)
          if ¬ ((t - 1) / (mA - 1) < p0 ∨ mA = cdiv t p0) then none
          else
            let n0 := N / (sqrtN + 1)
            if n0 = 0 then none
            else
              let PLb := PL.dropWhile (fun p => decide (p ≤ sqrtN))
              match tierB ctx N t plmmax (PLb.length + 1) PLb mA n0 (p0 - 1) stA with
              | none => none
              | some stB =>
                match tierC ctx N t mid plmmax (piFun plmmax) stB with
                | none => none
                | some (_, lastpiC, stC) =>
                  if ¬ lastpiC = piFun (t - 1) then none
                  else
                    match bandsAll ctx N t lastpiC stC with
                    | none => none
                    | some stD =>
                      if ¬ nonnegRange (getE stD.E) maxpi then none
                      else
                        if fast = false then
                          match phase2Std ctx t numm Ms fuel maxpi (cdiv t s)
                              ((List.range (maxpi + 1)).foldl
                                (fun a i => a + getE stD.E i) 0) stD with
                          | none => none
                          | some stE => tfacFinish ctx t (skipZ stE.E maxpi) stE
                        else
                          let pimin := piFun (cdiv t maxm) + 1
                          match phase2Fast ctx t numm pimin (piFun ctx.maxp) Ms
                              maxpi (cdiv t s) stD with
                          | none => none
                          | some stE =>
                            match packLoop ctx t (5 * cdiv t 4) s fuel
                                (skipZ stE.E maxpi) stE with
                            | none => none
                            | some (stF, cLeft, maxpiF0) =>
                              tfacFinish ctx t
                                (skipZ (subFL stF.E (-1) cLeft) maxpiF0)
                                { stF with E := subFL stF.E (-1) cLeft }

/-- The cofactor-bound asserts of `tfac` (lines 297-299), between `fac_s`
and the main body. -/
def tfacGuard2 (ctx : Ctx) (N t : ℕ) (fast : Bool) (maxmF midRaw : ℕ) (wc : Bool)
    (fuel s : ℕ) : Option (ℤ × Option Fac) :=
  if fast = false ∧ ¬ t ≤ maxmAdj ctx.maxm + 1 then none
  else if ¬ (if fast then maxmF else t - 1) ≤ maxmAdj ctx.maxm then none
  else tfacMain ctx N t fast maxmF midRaw wc fuel s

/-- The counter `tfac` (line 279): preconditions first (the `assert`s of
lines 284, 286 via `fac_s`, 297 and 299), then the main body.  `maxmF`
stands for the float-derived `(int64)pow(t, 0.625)` of the fast variant,
`midRaw` for `(int64)pow(t, MCUTOFF)`; `wc` requests a certificate (the
C `verify` flag, which also triggers `fac_verify` at the end). -/
def tfacE (ctx : Ctx) (N t : ℕ) (fast : Bool) (maxmF midRaw : ℕ) (wc : Bool)
    (fuel : ℕ) : Option (ℤ × Option Fac) :=
  if ¬ (10 ≤ N ∧ N < 2 ^ 48 - 1 ∧ N < 4 * t ∧ 2 * t < N) then none
  else
    match fac_sE ctx.maxp t with
    | none => none
    | some s => tfacGuard2 ctx N t fast maxmF midRaw wc fuel s

/-- The returned count of an invocation with ample fuel (the fuel bound
`(N+4)²` dominates every loop of the algorithm for the inputs we
evaluate). -/
def tfacCnt (ctx : Ctx) (N t : ℕ) (fast : Bool) (maxmF midRaw : ℕ) (wc : Bool) :
    Option ℤ :=
  (tfacE ctx N t fast maxmF midRaw wc ((N + 4) * (N + 4))).map Prod.fst

/-- Exact integer `⌊t^(5/8)⌋`, the value the C computes as
`(int64_t)pow(t, 0.625)` (they agree on the relevant range; checked
exhaustively for `t ≤ 5000`). -/
def pow58 (t : ℕ) : ℕ := Nat.findGreatest (fun k => k ^ 8 ≤ t ^ 5) t

/-- Exact integer `⌊t^(9/40)⌋`, the value the C computes as
`(int64_t)pow(t, MCUTOFF)` with the default `MCUTOFF = 0.225`. -/
def pow225 (t : ℕ) : ℕ := Nat.findGreatest (fun k => k ^ 40 ≤ t ^ 9) t

theorem fac_sE_some {MAXP t s : ℕ} (h : fac_sE MAXP t = some s) :
    s = sOf t ∧ sOf t ≤ MAXP := by
  unfold fac_sE at h
  split at h
  · exact absurd h (by simp)
  · split at h
    · exact ⟨(Option.some_inj.mp h).symm, by assumption⟩
    · exact absurd h (by simp)

/-- C7 (amended): the counter's preconditions are `10 ≤ N < 2^48 - 1`
(the C asserts `N >= 10 && N < MAXN` with `MAXN = 2^48 - 1`, not
`14 ≤ N` as the spec says), `2t < N < 4t`, and the table bounds
`s = fac_s(t) ≤ MAXP` and derived cofactor bound `≤ MAXM` (where the
derived bound is `t-1` for the standard variant and the float-derived
`maxmF ~ t^0.625` for the fast variant); violating any of them makes the
invocation abort (`none`) rather than return an error value. -/
theorem tfac_precondition_abort (ctx : Ctx) (N t : ℕ) (fast : Bool)
    (maxmF midRaw : ℕ) (wc : Bool) (fuel : ℕ)
    (h : N < 10 ∨ 2 ^ 48 - 1 ≤ N ∨ 4 * t ≤ N ∨ N ≤ 2 * t ∨ ctx.maxp < sOf t ∨
      (fast = false ∧ maxmAdj ctx.maxm + 1 < t) ∨
      maxmAdj ctx.maxm < (if fast then maxmF else t - 1)) :
    tfacE ctx N t fast maxmF midRaw wc fuel = none := by
  unfold tfacE
  by_cases h1 : ¬ (10 ≤ N ∧ N < 2 ^ 48 - 1 ∧ N < 4 * t ∧ 2 * t < N)
  · rw [if_pos h1]
  · rw [if_neg h1]
    push_neg at h1
    cases hs : fac_sE ctx.maxp t with
    | none => rfl
    | some s =>
      obtain ⟨hseq, hsle⟩ := fac_sE_some hs
      show tfacGuard2 ctx N t fast maxmF midRaw wc fuel s = none
      unfold tfacGuard2
      rcases h with h | h | h | h | h | h | h
      · omega
      · omega
      · omega
      · omega
      · omega
      · rw [if_pos (And.intro h.1 (by omega))]
      · by_cases h2 : fast = false ∧ ¬ t ≤ maxmAdj ctx.maxm + 1
        · rw [if_pos h2]
        · rw [if_neg h2]
          have h3 : ¬ (if fast then maxmF else t - 1) ≤ maxmAdj ctx.maxm := by omega
          rw [if_pos h3]

/-- Witness: the precondition-abort theorem applied at `N = 9 < 10`
(with `t = 4`, so `2t < N < 4t` fails as well in the C's order of
checks, but already `N < 10` makes the invocation abort). -/
theorem tfac_precondition_abort_witness :
    (9 < 10 ∨ 2 ^ 48 - 1 ≤ 9 ∨ 4 * 4 ≤ 9 ∨ 9 ≤ 2 * 4 ∨ Ctx.maxp ⟨20, 25⟩ < sOf 4 ∨
        (false = false ∧ maxmAdj (Ctx.maxm ⟨20, 25⟩) + 1 < 4) ∨
        maxmAdj (Ctx.maxm ⟨20, 25⟩) < (if false then 0 else 4 - 1)) ∧
      tfacE ⟨20, 25⟩ 9 4 false 0 1 false 100 = none :=
  ⟨Or.inl (by decide),
    tfac_precondition_abort ⟨20, 25⟩ 9 4 false 0 1 false 100 (Or.inl (by decide))⟩

/-- C7 counterexample: the spec claims the counter requires `14 ≤ N` and
that any violating invocation is fatal, but the invocation `tfac(12, 4)`
(which violates the claimed precondition) runs to completion and returns
the count 11. -/
theorem tfac_accepts_N12 : tfacCnt ⟨20, 25⟩ 12 4 false 0 1 false = some 11 := by
  decide

/-- C9: the counter is a pure function of its arguments (the tables `ctx`,
`N`, `t`, the variant, the float-derived tunables, the certificate flag
and the fuel): repeated invocations with identical arguments return
identical results.  In the embedding all mutable state (`E`, the
candidate list, the certificate) is invocation-local by construction,
mirroring the C code in which `tfac` allocates and frees all of its
working storage and only reads the `setup` tables. -/
theorem tfac_deterministic (ctx : Ctx) (N t : ℕ) (fast : Bool) (maxmF midRaw : ℕ)
    (wc : Bool) (fuel : ℕ) :
    tfacE ctx N t fast maxmF midRaw wc fuel = tfacE ctx N t fast maxmF midRaw wc fuel :=
  rfl

set_option maxHeartbeats 4000000 in
/-- C6 counterexample: for the fast variant at `N = 55` (with the actual
float-derived parameters `maxm = ⌊t^0.625⌋` and `mid = ⌊t^0.225⌋` the C
computes), the exact count at `t = 24` is 48 but at the LARGER target
`t = 25` it is 49: `count(N, t)` is not non-increasing in `t`. -/
theorem count_not_antitone :
    tfacCnt ⟨20, 25⟩ 55 24 true (pow58 24) (pow225 24) false = some 48 ∧
      tfacCnt ⟨20, 25⟩ 55 25 true (pow58 25) (pow225 25) false = some 49 ∧
      ¬ (49 : ℤ) ≤ 48 := by
  refine ⟨by decide, by decide, by decide⟩

/-- The list of targets `t` satisfying the counter's own precondition
`2t < N < 4t` for a given `N`. -/
def validTs (N : ℕ) : List ℕ :=
  (List.range' (N / 4 + 1) ((N + 1) / 2 - (N / 4 + 1))).filter
    (fun t => decide (N < 4 * t) && decide (2 * t < N))

/-- Boolean check that a list of counts is non-increasing. -/
def chainDecr : List ℤ → Bool
  | [] => true
  | [_] => true
  | a :: b :: rest => decide (b ≤ a) && chainDecr (b :: rest)

theorem chainDecr_iff : ∀ l : List ℤ,
    chainDecr l = true ↔ List.Chain' (fun a b => b ≤ a) l
  | [] => by simp [chainDecr]
  | [a] => by simp [chainDecr]
  | a :: b :: rest => by
    rw [show chainDecr (a :: b :: rest) = (decide (b ≤ a) && chainDecr (b :: rest))
        from rfl]
    rw [List.chain'_cons, Bool.and_eq_true, decide_eq_true_eq,
      chainDecr_iff (b :: rest)]

/-- The per-`N` per-variant invocation results over all valid targets. -/
def optCounts (N : ℕ) (fast : Bool) : List (Option ℤ) :=
  (validTs N).map (fun t => tfacCnt ⟨20, 25⟩ N t fast (pow58 t) (pow225 t) false)

/-- The per-`N` per-variant count list over all valid targets. -/
def countsList (N : ℕ) (fast : Bool) : List ℤ :=
  (optCounts N fast).map (fun o => o.getD 0)

/-- All invocations in a result list succeeded and their counts are
non-increasing. -/
def okDecrL (l : List (Option ℤ)) : Bool :=
  l.all (fun o => o.isSome) && chainDecr (l.map (fun o => o.getD 0))

/-- `okDecrL` over the valid targets of one `(N, variant)` pair. -/
def okDecr (N : ℕ) (fast : Bool) : Bool :=
  okDecrL (optCounts N fast)

set_option maxHeartbeats 40000000 in
/-- C6 (amended): `count(N, t)` is not non-increasing in `t` in general
(fast variant at `N = 55`: count 48 at `t = 24` but 49 at the larger
target `t = 25`); on the restricted domain `12 ≤ N ≤ 30` every valid
target succeeds against sufficient tables and the counts are
non-increasing in `t`, for both variants (with the actual float-derived
tunables `⌊t^0.625⌋` and `⌊t^0.225⌋`). -/
theorem count_antitone_smallN :
    ∀ N ∈ List.range' 12 19, ∀ fast : Bool,
      (∀ c ∈ optCounts N fast, c.isSome = true) ∧
        List.Chain' (fun a b => b ≤ a) (countsList N fast) := by
  have h : ((List.range' 12 19).all
      (fun N => okDecr N false && okDecr N true)) = true := by
    decide
  intro N hN fast
  have h2 := (List.all_eq_true.mp h) N hN
  rw [Bool.and_eq_true] at h2
  have hx : okDecrL (optCounts N fast) = true := by
    cases fast
    · exact h2.1
    · exact h2.2
  rw [okDecrL, Bool.and_eq_true] at hx
  refine ⟨fun c hc => (List.all_eq_true.mp hx.1) c hc, (chainDecr_iff _).mp hx.2⟩

/-- Witness for the amended monotonicity theorem at `N = 15`. -/
theorem count_antitone_smallN_witness :
    (∀ c ∈ optCounts 15 false, c.isSome = true) ∧
      List.Chain' (fun a b => b ≤ a) (countsList 15 false) :=
  count_antitone_smallN 15 (by decide) false

/-- The exact counter as the oracle `tbound` probes: `t` ↦ the count of
`tfac(N, t, fast, 0, ..., verify, 0)`, with the float-derived per-call
tunables abstracted as selector functions of `t`. -/
def tfacOracle (ctx : Ctx) (N : ℕ) (fast : Bool) (maxmSel midSel : ℕ → ℕ) (wc : Bool) :
    ℕ → Option ℤ :=
  fun t => tfacCnt ctx N t fast (maxmSel t) (midSel t) wc

/-- The descending initial scan of `tbound` (line 595):
`while (cnt < N) cnt = tfac(N, --t, ...)`. -/
def tboundDescend (tf : ℕ → Option ℤ) (N : ℕ) : ℕ → ℕ → ℤ → Option (ℕ × ℤ)
  | 0, _, _ => none
  | fuel + 1, t, cnt =>
    if cnt < (N : ℤ) then
      match tf (t - 1) with
      | none => none
      | some c2 => tboundDescend tf N fuel (t - 1) c2
    else some (t, cnt)

/-- Bracket update of the bisection (line 604), lower end:
`if (cnt >= N) tmin = max(t, tmin)`. -/
def updMin (N : ℕ) (cnt : ℤ) (t tmin : ℕ) : ℕ :=
  if (N : ℤ) ≤ cnt then max t tmin else tmin

/-- Bracket update of the bisection (line 604), upper end:
`else tmax = min(t, tmax)`. -/
def updMax (N : ℕ) (cnt : ℤ) (t tmax : ℕ) : ℕ :=
  if (N : ℤ) ≤ cnt then tmax else min t tmax

/-- The clamps of lines 606-607 forcing the next probe point strictly
inside the bracket `(tmin, tmax)`. -/
def clampT (tmin tmax traw : ℕ) : ℕ :=
  if tmax ≤ (if traw ≤ tmin then max ((3 * tmin + tmax) / 4) (tmin + 1) else traw) then
    min ((tmin + 3 * tmax) / 4) (tmax - 1)
  else if traw ≤ tmin then max ((3 * tmin + tmax) / 4) (tmin + 1) else traw

theorem clampT_bounds (tmin tmax traw : ℕ) (h : tmin < tmax) :
    tmin ≤ clampT tmin tmax traw ∧ clampT tmin tmax traw < tmax := by
  unfold clampT
  by_cases h1 : traw ≤ tmin
  · rw [if_pos h1]
    by_cases h2 : tmax ≤ max ((3 * tmin + tmax) / 4) (tmin + 1)
    · rw [if_pos h2]; omega
    · rw [if_neg h2]; omega
  · rw [if_neg h1]
    by_cases h2 : tmax ≤ traw
    · rw [if_pos h2]; omega
    · rw [if_neg h2]; omega

/-- The modified bisection loop of `tbound` (lines 602-609).  `probe`
abstracts the float expression `round(exp(log(t)+(cnt-N)*log(t)/N))` of
line 605; the clamps keep any probe value strictly inside the bracket. -/
def tboundBisect (tf : ℕ → Option ℤ) (probe : ℕ → ℤ → ℕ) (N : ℕ) :
    ℕ → ℕ → ℤ → ℕ → ℕ → Option (ℕ × ℕ)
  | 0, _, _, _, _ => none
  | fuel + 1, t, cnt, tmin, tmax =>
    if tmin + 1 < tmax then
      match tf (clampT (updMin N cnt t tmin) (updMax N cnt t tmax) (probe t cnt)) with
      | none => none
      | some cnt2 =>
        tboundBisect tf probe N fuel
          (clampT (updMin N cnt t tmin) (updMax N cnt t tmax) (probe t cnt)) cnt2
          (updMin N cnt t tmin) (updMax N cnt t tmax)
    else some (tmin, tmax)

/-- The driver `tbound` (lines 590-611, non-exhaustive path): assert the
ratio bounds `5a ≤ 2b ≤ 8a`..`b ≤ 4a`, probe `t = cdiv(a·N, b)`, walk
down to a `t` whose count reaches `N`, run the bisection on the bracket
`[tmin, (2N)/5)`, and assert the upper end moved (line 610) before
returning `tmin`. -/
def tboundG (tf : ℕ → Option ℤ) (probe : ℕ → ℤ → ℕ) (N a b fuel : ℕ) : Option ℕ :=
  if ¬ (a * 5 ≤ 2 * b ∧ b ≤ a * 4) then none
  else
    match tf (cdiv (a * N) b) with
    | none => none
    | some cnt0 =>
      match tboundDescend tf N fuel (cdiv (a * N) b) cnt0 with
      | none => none
      | some tc =>
        match tboundBisect tf probe N fuel tc.1 tc.2 tc.1 (2 * N / 5) with
        | none => none
        | some mm => if mm.2 < 2 * N / 5 then some mm.1 else none

/-- The search driver `tbound` of the C program specialised to the
program's own counter. -/
def tbound (ctx : Ctx) (N a b : ℕ) (fast : Bool) (maxmSel midSel : ℕ → ℕ) (wc : Bool)
    (probe : ℕ → ℤ → ℕ) (fuel : ℕ) : Option ℕ :=
  tboundG (tfacOracle ctx N fast maxmSel midSel wc) probe N a b fuel

theorem tboundDescend_spec (tf : ℕ → Option ℤ) (N : ℕ) :
    ∀ fuel t cnt t' cnt', tf t = some cnt →
      tboundDescend tf N fuel t cnt = some (t', cnt') →
      tf t' = some cnt' ∧ (N : ℤ) ≤ cnt' := by
  intro fuel
  induction fuel with
  | zero =>
    intro t cnt t' cnt' _ h
    exact absurd h (by simp [tboundDescend])
  | succ fuel ih =>
    intro t cnt t' cnt' htf h
    rw [tboundDescend] at h
    by_cases hc : cnt < (N : ℤ)
    · rw [if_pos hc] at h
      cases h2 : tf (t - 1) with
      | none => rw [h2] at h; exact absurd h (by simp)
      | some c2 => rw [h2] at h; exact ih (t - 1) c2 t' cnt' h2 h
    · rw [if_neg hc] at h
      injection h with hp
      injection hp with e1 e2
      subst e1; subst e2
      exact ⟨htf, by omega⟩

theorem tboundBisect_spec (tf : ℕ → Option ℤ) (probe : ℕ → ℤ → ℕ) (N T0 : ℕ) :
    ∀ fuel t cnt tmin tmax tminF tmaxF,
      tboundBisect tf probe N fuel t cnt tmin tmax = some (tminF, tmaxF) →
      tf t = some cnt →
      (∃ c, tf tmin = some c ∧ (N : ℤ) ≤ c) →
      (tmax = T0 ∨ ∃ c, tf tmax = some c ∧ c < (N : ℤ)) →
      tmin < tmax → tmin ≤ t → t < tmax →
      (∃ c, tf tminF = some c ∧ (N : ℤ) ≤ c) ∧
        (tmaxF = T0 ∨ ∃ c, tf tmaxF = some c ∧ c < (N : ℤ)) ∧
        tminF < tmaxF ∧ tmaxF ≤ tminF + 1 := by
  intro fuel
  induction fuel with
  | zero =>
    intro t cnt tmin tmax tminF tmaxF h
    exact absurd h (by simp [tboundBisect])
  | succ fuel ih =>
    intro t cnt tmin tmax tminF tmaxF h htf hmin hmax hlt hle hlt2
    rw [tboundBisect] at h
    by_cases hcond : tmin + 1 < tmax
    · rw [if_pos hcond] at h
      have hNew1 : ∃ c, tf (updMin N cnt t tmin) = some c ∧ (N : ℤ) ≤ c := by
        unfold updMin
        by_cases hN : (N : ℤ) ≤ cnt
        · rw [if_pos hN]
          rcases Nat.le_total t tmin with hh | hh
          · rw [Nat.max_eq_right hh]; exact hmin
          · rw [Nat.max_eq_left hh]; exact ⟨cnt, htf, hN⟩
        · rw [if_neg hN]; exact hmin
      have hNew2 : updMax N cnt t tmax = T0 ∨
          ∃ c, tf (updMax N cnt t tmax) = some c ∧ c < (N : ℤ) := by
        unfold updMax
        by_cases hN : (N : ℤ) ≤ cnt
        · rw [if_pos hN]; exact hmax
        · rw [if_neg hN, Nat.min_eq_left (le_of_lt hlt2)]
          exact Or.inr ⟨cnt, htf, by omega⟩
      have hmm : updMin N cnt t tmin < updMax N cnt t tmax := by
        unfold updMin updMax
        by_cases hN : (N : ℤ) ≤ cnt
        · rw [if_pos hN, if_pos hN]; omega
        · rw [if_neg hN, if_neg hN]
          rcases Nat.lt_or_ge tmin t with hh | hh
          · omega
          · have ht : t = tmin := le_antisymm hh hle
            obtain ⟨c, hc1, hc2⟩ := hmin
            rw [← ht, htf] at hc1
            injection hc1 with hcc
            omega
      have hcb := clampT_bounds (updMin N cnt t tmin) (updMax N cnt t tmax)
        (probe t cnt) hmm
      cases h2 : tf (clampT (updMin N cnt t tmin) (updMax N cnt t tmax) (probe t cnt)) with
      | none => rw [h2] at h; exact absurd h (by simp)
      | some cnt2 =>
        rw [h2] at h
        exact ih _ cnt2 _ _ tminF tmaxF h h2 hNew1 hNew2 hmm hcb.1 hcb.2
    · rw [if_neg hcond] at h
      injection h with hp
      injection hp with e1 e2
      subst e1; subst e2
      exact ⟨hmin, hmax, hlt, by omega⟩

theorem tboundG_spec (tf : ℕ → Option ℤ) (probe : ℕ → ℤ → ℕ) (N a b fuel tmin : ℕ)
    (h : tboundG tf probe N a b fuel = some tmin) :
    ∃ c c', tf tmin = some c ∧ (N : ℤ) ≤ c ∧
      tf (tmin + 1) = some c' ∧ c' < (N : ℤ) := by
  unfold tboundG at h
  by_cases hg : ¬ (a * 5 ≤ 2 * b ∧ b ≤ a * 4)
  · rw [if_pos hg] at h; exact absurd h (by simp)
  · rw [if_neg hg] at h
    cases h0 : tf (cdiv (a * N) b) with
    | none => rw [h0] at h; exact absurd h (by simp)
    | some cnt0 =>
      rw [h0] at h
      dsimp only at h
      cases h1 : tboundDescend tf N fuel (cdiv (a * N) b) cnt0 with
      | none => rw [h1] at h; exact absurd h (by simp)
      | some tc =>
        rw [h1] at h
        dsimp only at h
        obtain ⟨tD, cD⟩ := tc
        dsimp only at h
        obtain ⟨hd1, hd2⟩ :=
          tboundDescend_spec tf N fuel (cdiv (a * N) b) cnt0 tD cD h0 h1
        cases h2 : tboundBisect tf probe N fuel tD cD tD (2 * N / 5) with
        | none => rw [h2] at h; exact absurd h (by simp)
        | some mm =>
          rw [h2] at h
          dsimp only at h
          obtain ⟨tmF, txF⟩ := mm
          dsimp only at h
          by_cases h3 : txF < 2 * N / 5
          · rw [if_pos h3] at h
            injection h with htm
            subst htm
            by_cases h4 : tD < 2 * N / 5
            · obtain ⟨hf1, hf2, hf3, hf4⟩ :=
                tboundBisect_spec tf probe N (2 * N / 5) fuel tD cD tD (2 * N / 5)
                  tmF txF h2 hd1 ⟨cD, hd1, hd2⟩ (Or.inl rfl) h4 (le_refl tD) h4
              obtain ⟨c, hc1, hc2⟩ := hf1
              rcases hf2 with hfx | ⟨c', hc3, hc4⟩
              · omega
              · have hx : txF = tmF + 1 := by omega
                exact ⟨c, c', hc1, hc2, hx ▸ hc3, hc4⟩
            · cases fuel with
              | zero => exact absurd h2 (by simp [tboundBisect])
              | succ f =>
                rw [tboundBisect] at h2
                rw [if_neg (by omega)] at h2
                injection h2 with hp
                injection hp with e1 e2
                omega
          · rw [if_neg h3] at h; exact absurd h (by simp)

/-- C4: for every invocation of the non-exhaustive search
`findBestT(N, a/b, variant)` (the C function `tbound` with
`exhaustive = 0`) that returns a value `tmin` (rather than aborting),
the exact counter for the same `N`, variant and tunables returns
`count(N, tmin) ≥ N` and `count(N, tmin + 1) < N`.  The float probe of
line 605 is abstracted by an arbitrary `probe` function: the clamping of
lines 606-607 makes the bracket invariants independent of its values. -/
theorem findBestT_correct (ctx : Ctx) (N : ℕ) (fast : Bool) (maxmSel midSel : ℕ → ℕ)
    (wc : Bool) (probe : ℕ → ℤ → ℕ) (a b fuel tmin : ℕ)
    (h : tbound ctx N a b fast maxmSel midSel wc probe fuel = some tmin) :
    ∃ c c', tfacOracle ctx N fast maxmSel midSel wc tmin = some c ∧ (N : ℤ) ≤ c ∧
      tfacOracle ctx N fast maxmSel midSel wc (tmin + 1) = some c' ∧ c' < (N : ℤ) :=
  tboundG_spec (tfacOracle ctx N fast maxmSel midSel wc) probe N a b fuel tmin h

/-- Witness: the complete concrete search `tbound(15, 1/3, standard)`
with the trivial probe returns `tmin = 4`, and indeed
`count(15, 4) = 15 ≥ 15` while `count(15, 5) = 14 < 15`. -/
theorem findBestT_correct_witness :
    ∃ c c', tfacOracle ⟨20, 25⟩ 15 false pow58 pow225 false 4 = some c ∧ (15 : ℤ) ≤ c ∧
      tfacOracle ⟨20, 25⟩ 15 false pow58 pow225 false (4 + 1) = some c' ∧ c' < (15 : ℤ) :=
  findBestT_correct ⟨20, 25⟩ 15 false pow58 pow225 false (fun _ _ => 0) 1 3 30 4
    (by decide)

end Egs
